import Mathlib

/-!
Verification of the baby-emoji-generator backend against its specification.

The Python sources under `backend/app` are shallowly embedded: pure string
and list manipulations become Lean functions on `String` / `List Char`,
Python floats that only ever hold exact decimal values are modelled as `ℚ`,
and fallible code returns `Option` / `Except`.  Python's `str.strip()` is
modelled on the ASCII whitespace characters (the only ones that occur in
this pipeline).
-/

namespace BabyMeme

/-- ASCII whitespace, the fragment of Python's `str.strip()` / regex `\s`
character class exercised by this code base. -/
def isPyWs (c : Char) : Bool :=
  c = ' ' || c = '\t' || c = '\n' || c = '\r' || c = (Char.ofNat 11) || c = (Char.ofNat 12)

/-- Model of Python `str.strip()` on a character list. -/
def stripL (l : List Char) : List Char :=
  ((l.dropWhile isPyWs).reverse.dropWhile isPyWs).reverse

/-- Model of Python `str.strip()`. -/
def pyStrip (s : String) : String :=
  String.mk (stripL s.data)

/-- Model of Python `str.strip(chars)` restricted to a character set:
removes leading and trailing characters belonging to `p`. -/
def stripSetL (p : Char → Bool) (l : List Char) : List Char :=
  ((l.dropWhile p).reverse.dropWhile p).reverse

/-- Model of `re.sub(r"\\s+", " ", s)` from `safety.py`.  Note that in the
source the pattern is the raw string `\\s+`, i.e. regex "literal backslash
followed by one or more letters s" — it does NOT match whitespace.  The scan
is left-to-right, non-overlapping, greedy on the run of `s`. -/
def bwsF : Nat → List Char → List Char
  | 0, l => l
  | _, [] => []
  | fuel + 1, '\\' :: 's' :: rest => ' ' :: bwsF fuel (rest.dropWhile (· = 's'))
  | fuel + 1, c :: rest => c :: bwsF fuel rest

/-- Model of `re.sub(r"\\s+", " ", s)` from `safety.py`.  Note that in the
source the pattern is the raw string `\\s+`, i.e. regex "literal backslash
followed by one or more letters s" — it does NOT match whitespace.  The scan
is left-to-right, non-overlapping, greedy on the run of `s`; the fuel
(one unit per consumed character) always suffices. -/
def brokenWsSubL (l : List Char) : List Char := bwsF l.length l

/-- The zero-width space U+200B removed by `sanitize_caption`. -/
def zwsp : Char := Char.ofNat 0x200B

/-- The punctuation set stripped from both ends by `sanitize_caption`
(`s.strip("，,。.!！?？…")`). -/
def isTrailPunct (c : Char) : Bool :=
  c = '，' || c = ',' || c = '。' || c = '.' || c = '!' || c = '！' ||
  c = '?' || c = '？' || c = '…'

/-- Model of `safety.sanitize_caption`, including the broken whitespace
regex (see `brokenWsSubL`). -/
def sanitize_caption (s : String) : String :=
  let a := stripL (brokenWsSubL s.data)
  let b := a.filter (· ≠ zwsp)
  let c := stripSetL isTrailPunct b
  if c = [] then String.mk ['收', '到'] else String.mk c

/-- Is `p` a prefix of `t` (on characters)? -/
def isPre : List Char → List Char → Bool
  | [], _ => true
  | _ :: _, [] => false
  | a :: p, b :: t => a = b && isPre p t

/-- Does `t` contain `p` as a contiguous substring?  Models
`re.search` of a fixed literal. -/
def hasSub (p : List Char) : List Char → Bool
  | [] => isPre p []
  | c :: rest => isPre p (c :: rest) || hasSub p rest

/-- The banned-topic patterns of `safety._BANNED_PATTERNS`; every pattern is
an alternation of literal substrings, so matching is substring containment
of one of the alternatives. -/
def BANNED_PATTERNS : List (List String) :=
  [ ["老婆", "老公", "对象", "谈恋爱", "恋爱", "心动", "撩", "撩人", "在一起"],
    ["亲亲", "亲一口", "亲一下", "亲个", "么么", "接吻", "舌", "湿身", "性感", "内衣", "私密", "胸", "脱"],
    ["傻", "蠢", "废物", "滚", "恶心", "丑", "死", "讨厌你"],
    ["地址", "小区", "门牌", "学校", "班级", "医院", "上火", "病", "生病", "发烧", "过敏", "用药", "打针"] ]

/-- Model of `safety.is_caption_safe`. -/
def is_caption_safe (s : String) : Bool :=
  let t := stripL s.data
  !t.isEmpty && t.length ≤ 60 &&
    !(BANNED_PATTERNS.any (fun g => g.any (fun w => hasSub w.data t)))

/-- The six expression labels of `captions_fallback.ExpressionLabel`. -/
inductive Label where
  | happy | wronged | angry | shocked | sleepy | uncertain
  deriving DecidableEq, Repr

/-- Model of `safety.pick_expression_label`: the five known Chinese labels
map to themselves, anything else collapses to "不确定" (uncertain). -/
def pick_expression_label (model_label : String) : Label :=
  if model_label = "开心" then .happy
  else if model_label = "委屈" then .wronged
  else if model_label = "生气" then .angry
  else if model_label = "震惊" then .shocked
  else if model_label = "困" then .sleepy
  else .uncertain

/-- The static fallback caption pools of `captions_fallback.CAPTIONS_FALLBACK`. -/
def CAPTIONS_FALLBACK : Label → List String
  | .happy =>
      ["嘿嘿，开心！", "今天也太快乐了", "好耶！", "我超满意", "快乐加载中", "笑到停不下来",
       "安排！", "这也太好玩了", "我可以！", "心情：晴天", "开心到转圈圈", "这波稳了"]
  | .wronged =>
      ["我哪有嘛", "我只是小小委屈一下", "不要凶我嘛", "我先抿嘴", "我真的没有", "就一点点难过",
       "我先躲一会儿", "我需要安慰", "我不服，但我忍", "我好委屈", "眼泪在眼眶打转", "你说呢？"]
  | .angry =>
      ["我生气了！", "哼！", "别惹我", "我现在很严肃", "不许这样", "气鼓鼓",
       "我不理你了", "这事儿我记下了", "我拒绝", "你给我解释清楚", "我在发火边缘", "哼唧……"]
  | .shocked =>
      ["啊？还有这事？", "我听到了什么", "等等，我没听错吧", "这合理吗？", "震惊到失语", "我脑子嗡的一下",
       "我人都傻了", "让我缓一缓", "你再说一遍？", "这个我真没想到", "眼睛都瞪圆了", "离谱！"]
  | .sleepy =>
      ["我困了", "我先眯一会儿", "电量不足", "我需要睡觉觉", "我已经开始打哈欠", "眼皮打架中",
       "能不能先让我睡会", "我真的要睡了", "困到灵魂出走", "今天的我：想睡", "晚安模式开启", "让我安静一下"]
  | .uncertain =>
      ["收到", "嗯嗯", "好吧", "行", "我先这样", "我看看",
       "等等我", "让我想想", "我不说话", "我先沉默", "先这样吧", "我在呢"]

/-- Model of `captions_fallback.get_fallback_captions` (the `.get(label) or`
default never fires because every label owns a non-empty pool). -/
def get_fallback_captions (label : Label) (n : Nat := 5) : List String :=
  let pool := CAPTIONS_FALLBACK label
  if n ≤ 0 then []
  else (List.range n).map (fun i => pool.getD (i % pool.length) "")

/-- The mouth-closeup caption pool of `captions_fallback.MOUTH_CLOSEUP_CAPTIONS`. -/
def MOUTH_CLOSEUP_CAPTIONS : List String :=
  ["口水上线", "我先尝一口", "馋到不行", "嗯…好香", "别拍了别拍了", "我在认真品",
   "等我一口", "这一口很关键", "先别催我", "我先含会儿", "给我留点面子", "我就看看不说话"]

/-- Model of `captions_fallback.get_mouth_closeup_captions`. -/
def get_mouth_closeup_captions (n : Nat := 5) : List String :=
  if n ≤ 0 then []
  else (List.range n).map (fun i => MOUTH_CLOSEUP_CAPTIONS.getD (i % MOUTH_CLOSEUP_CAPTIONS.length) "")

/-- The candidate loop of `ensure_5_safe_captions`: sanitize each candidate,
keep it when safe, stop as soon as five are kept. -/
def ensure5Go : List String → List String → List String
  | [], safe => safe
  | c :: cs, safe =>
    let s := sanitize_caption c
    let safe' := if is_caption_safe s then safe ++ [s] else safe
    if 5 ≤ safe'.length then safe' else ensure5Go cs safe'

/-- The padding loop of `ensure_5_safe_captions`:
`while len(safe) < 5: safe.append(fallback[len(safe)])`. -/
def padF (fb : List String) : Nat → List String → List String
  | 0, safe => safe
  | fuel + 1, safe =>
    if safe.length < 5 then padF fb fuel (safe ++ [fb.getD safe.length ""])
    else safe

/-- Five fuel units always suffice for the padding loop, since every
iteration grows the list by one and the loop stops at length 5. -/
def padFallback (fb : List String) (safe : List String) : List String :=
  padF fb 5 safe

/-- Model of `safety.ensure_5_safe_captions`. -/
def ensure_5_safe_captions (candidates : List String) (fallback_label : Label) :
    List String × Bool :=
  let safe := ensure5Go candidates []
  if 5 ≤ safe.length then (safe.take 5, false)
  else (padFallback (get_fallback_captions fallback_label 5) safe, true)

/-!
Candidate selection (`selection.py`).  Python float scores are modelled as
exact rationals; `pick_top_5` only ever compares them.
-/

/-- The two crop candidate types of `selection.CropType`. -/
inductive CropType where
  | face | mouth
  deriving DecidableEq, Repr

/-- Model of `selection.CropCandidate`. -/
structure CropCandidate where
  src_index : Nat
  src_name : String
  crop_type : CropType
  score : ℚ
  deriving DecidableEq, Repr

instance : Inhabited CropCandidate := ⟨⟨0, "", .face, 0⟩⟩

/-- Stable descending insertion: a later element goes after every earlier
element of greater-or-equal score. -/
def insDesc (x : CropCandidate) : List CropCandidate → List CropCandidate
  | [] => [x]
  | y :: ys => if x.score ≤ y.score then y :: insDesc x ys else x :: y :: ys

/-- Model of `sorted(candidates, key=lambda c: c.score, reverse=True)`:
Python's sort is stable, and a stable descending sort is uniquely
determined, so this insertion sort computes the same list. -/
def sortDesc (l : List CropCandidate) : List CropCandidate :=
  l.foldl (fun acc x => insDesc x acc) []

/-- Number of already-selected candidates from a given source image
(the `per_image` counter of `pick_top_5._fill`). -/
def perImage (sel : List CropCandidate) (src : Nat) : Nat :=
  (sel.filter (fun s => s.src_index = src)).length

/-- Number of already-selected mouth candidates (the `mouth_count` counter). -/
def mouthCount (sel : List CropCandidate) : Nat :=
  (sel.filter (fun s => s.crop_type = CropType.mouth)).length

/-- Membership of a candidate's `(src_index, crop_type)` key in the
selection (the `selected_keys` set). -/
def keyMem (c : CropCandidate) (sel : List CropCandidate) : Bool :=
  sel.any (fun s => decide (s.src_index = c.src_index ∧ s.crop_type = c.crop_type))

/-- Model of the `_fill` pass of `selection.pick_top_5`: walk the ranked
list, skipping candidates whose key is taken, whose source image reached
the per-image quota, or (for mouth candidates) when the mouth quota is
full; stop as soon as `target` slots are filled.  The counters of the
source are maintained incrementally but always equal these recomputed
values. -/
def fillF (target max_mouth mpi : Nat) : List CropCandidate → List CropCandidate → List CropCandidate
  | [], sel => sel
  | c :: cs, sel =>
    if target ≤ sel.length then sel
    else if keyMem c sel then fillF target max_mouth mpi cs sel
    else if mpi ≤ perImage sel c.src_index then fillF target max_mouth mpi cs sel
    else if c.crop_type = CropType.mouth ∧ max_mouth ≤ mouthCount sel then
      fillF target max_mouth mpi cs sel
    else fillF target max_mouth mpi cs (sel ++ [c])

/-- One guarded relaxation step of `pick_top_5`:
`if len(selected) < target: selected = _fill(selected, max_per_image=mpi)`. -/
def stageNext (ranked : List CropCandidate) (max_mouth target mpi : Nat)
    (sel : List CropCandidate) : List CropCandidate :=
  if sel.length < target then fillF target max_mouth mpi ranked sel else sel

/-- The four fill passes of `pick_top_5` with per-image quotas 1, 2, 3 and
`target` (the first pass is unconditional on the empty selection). -/
def pickStage4 (ranked : List CropCandidate) (max_mouth target : Nat) : List CropCandidate :=
  stageNext ranked max_mouth target target
    (stageNext ranked max_mouth target 3
      (stageNext ranked max_mouth target 2
        (fillF target max_mouth 1 ranked [])))

/-- Model of `selection.pick_top_5`.  The final `while` loop always appends
`selected[len(selected) % len(selected)] = selected[0]`, modelled by
`List.replicate`. -/
def pick_top_5 (candidates : List CropCandidate) (max_mouth : Nat) (target : Nat := 5) :
    List CropCandidate :=
  if candidates.isEmpty then []
  else
    let ranked := sortDesc candidates
    let s4 := pickStage4 ranked max_mouth target
    let s5 := if s4.isEmpty then [ranked.headD default] else s4
    let padded := s5 ++ List.replicate (target - s5.length) (s5.headD default)
    padded.take target

/-- Counterexample input for the mouth-quota clause of `pick_top_5`: three
mouth candidates from distinct sources outrank four face candidates that all
share source index 0 (hence share one selection key). -/
def cxCands : List CropCandidate :=
  [⟨0, "i0", .mouth, 9⟩, ⟨1, "i1", .mouth, 8⟩, ⟨2, "i2", .mouth, 7⟩,
   ⟨0, "i0", .face, 5⟩, ⟨0, "i0", .face, 4⟩, ⟨0, "i0", .face, 3⟩, ⟨0, "i0", .face, 2⟩]

/-- Witness input for the amended `pick_top_5` claim: five face candidates
with pairwise distinct source indices plus one top-ranked mouth candidate. -/
def w2Cands : List CropCandidate :=
  [⟨0, "a", .mouth, 10⟩, ⟨0, "a", .face, 5⟩, ⟨1, "b", .face, 4⟩,
   ⟨2, "c", .face, 3⟩, ⟨3, "d", .face, 2⟩, ⟨4, "e", .face, 1⟩]

/-!
Geometry engine (`meme_generator.py`).  Images carry no pixel content in
the claims below, only dimensions; a crop is a rectangle in the original
image's pixel coordinate system.  Python floats are modelled as exact
rationals; `int()` of a non-negative value is `Int.floor` / `Nat` division.
-/

/-- A crop rectangle `(left, top, right, bottom)` in pixel coordinates. -/
structure Rect where
  l : ℤ
  t : ℤ
  r : ℤ
  b : ℤ
  deriving DecidableEq, Repr

/-- Model of `schemas.CropBox` (the pydantic validators clamp on
construction; the geometry functions below clamp again regardless, so the
model accepts arbitrary rationals). -/
structure CropBox where
  x : ℚ
  y : ℚ
  w : ℚ
  h : ℚ
  reason : String := ""
  deriving DecidableEq, Repr

instance : Inhabited CropBox := ⟨⟨0, 0, 1, 1, ""⟩⟩

/-- Model of `utils.clamp`: `max(low, min(high, value))`. -/
def clamp (value low high : ℚ) : ℚ := max low (min high value)

/-- Model of `meme_generator.center_square_crop` for an image of size
`w × h`: the returned crop rectangle in that image's own coordinates
(`int((w - side) / 2)` is exact Nat division since `w ≥ side`). -/
def center_square_crop (w h : ℕ) : Rect :=
  let side := min w h
  let left := (w - side) / 2
  let top := (h - side) / 2
  ⟨(left : ℤ), (top : ℤ), (left + side : ℕ), (top + side : ℕ)⟩

/-- The float-to-int part of `meme_generator.square_from_box` (lines
303-334): box clamped to `[0,1]` / `[0.05,1]`, converted to pixel space,
centered square of side `min(bw, bh)` clamped to the shorter image side,
shifted fully inside bounds edge by edge, then floored/ceiled and clamped
to integer pixel coordinates `(l, t, r, b)`. -/
def sfbClamped (w h : ℕ) (box : CropBox) : ℤ × ℤ × ℤ × ℤ :=
  let wq : ℚ := (w : ℚ)
  let hq : ℚ := (h : ℚ)
  let left := clamp box.x 0 1 * wq
  let top := clamp box.y 0 1 * hq
  let bw := clamp box.w (5/100) 1 * wq
  let bh := clamp box.h (5/100) 1 * hq
  let cx := left + bw / 2
  let cy := top + bh / 2
  let side : ℚ := min (max 1 (min bw bh)) (min wq hq)
  let half := side / 2
  let l0 := cx - half
  let t0 := cy - half
  let r0 := cx + half
  let b0 := cy + half
  let p1 : ℚ × ℚ := if l0 < 0 then (0, r0 - l0) else (l0, r0)
  let p2 : ℚ × ℚ := if t0 < 0 then (0, b0 - t0) else (t0, b0)
  let p3 : ℚ × ℚ := if wq < p1.2 then (p1.1 - (p1.2 - wq), wq) else p1
  let p4 : ℚ × ℚ := if hq < p2.2 then (p2.1 - (p2.2 - hq), hq) else p2
  (max 0 ⌊p3.1⌋, max 0 ⌊p4.1⌋, min (w : ℤ) ⌈p3.2⌉, min (h : ℤ) ⌈p4.2⌉)

/-- Model of `meme_generator.square_from_box`: returns `none` exactly when
the code falls through to `auto_focus_square_crop(img)` (degenerate box,
edge ≤ 10 px), otherwise the final crop rectangle — the box-derived square
re-centered by `center_square_crop` in the crop's own frame and translated
back to image coordinates. -/
def square_from_box (w h : ℕ) (box : CropBox) : Option Rect :=
  let li := (sfbClamped w h box).1
  let ti := (sfbClamped w h box).2.1
  let ri := (sfbClamped w h box).2.2.1
  let bi := (sfbClamped w h box).2.2.2
  if ri - li ≤ 10 ∨ bi - ti ≤ 10 then none
  else
    let cw := (ri - li).toNat
    let ch := (bi - ti).toNat
    let inner := center_square_crop cw ch
    some ⟨li + inner.l, ti + inner.t, li + inner.r, ti + inner.b⟩

/-- The argmax loop of `auto_focus_square_crop` (lines 106-131): fold over
the candidate side lengths, and for each a 10×10 grid of top-left
positions, keeping the strictly best score.  `rectScore x y side` stands
for the edge-density score of lines 120-127 (computed from the integral
image and a floating-point square root, hence taken as a parameter: the
claims are independent of its values). -/
def afBest (rectScore : ℕ → ℕ → ℕ → ℚ) (sw sh : ℕ) (sizes : List ℕ)
    (init : ℕ × ℕ × ℕ) : ℕ × ℕ × ℕ :=
  (sizes.foldl (fun acc side =>
      let max_x := sw - side
      let max_y := sh - side
      let cands : List (ℕ × ℕ) :=
        if max_x = 0 ∧ max_y = 0 then [(0, 0)]
        else (List.range 10).flatMap (fun yi =>
          (List.range 10).map (fun xi => ((max_x * xi) / 9, (max_y * yi) / 9)))
      cands.foldl (fun acc2 xy =>
        let sc := rectScore xy.1 xy.2 side
        if acc2.1 < sc then (sc, (xy.1, xy.2, side)) else acc2) acc)
    (-(1000000000 : ℚ), init)).2

/-- The downscale of `auto_focus_square_crop` (lines 81-87): when the long
side exceeds 320 px the image is resized by `ratio = 320 / max(w, h)`;
`int(w * ratio)` of non-negative integers is exact Nat division. -/
def afSmall (w h : ℕ) : ℕ × ℕ :=
  let maxSide := max w h
  if 320 < maxSide then (max 1 ((w * 320) / maxSide), max 1 ((h * 320) / maxSide))
  else (w, h)

/-- The scale-back `int(v / ratio)` of `auto_focus_square_crop` (lines
134-136): `v * max(w, h) / 320` when downscaled, identity otherwise. -/
def afScaleBack (w h v : ℕ) : ℕ :=
  let maxSide := max w h
  if 320 < maxSide then (v * maxSide) / 320 else v

/-- Model of `meme_generator.auto_focus_square_crop` as the crop rectangle
it produces on a `w × h` image.  The final `center_square_crop` of the
already-square crop is composed explicitly. -/
def auto_focus_square_crop (w h : ℕ) (rectScore : ℕ → ℕ → ℕ → ℚ) : Rect :=
  if min w h < 96 then center_square_crop w h
  else
    let sw := (afSmall w h).1
    let sh := (afSmall w h).2
    if min sw sh < 96 then center_square_crop w h
    else
      let min_side := min sw sh
      let sizes := [(min_side * 45) / 100, (min_side * 60) / 100,
                    (min_side * 78) / 100].filter (fun s => 96 ≤ s)
      match sizes with
      | [] => center_square_crop w h
      | s0 :: _ =>
        let best := afBest rectScore sw sh sizes ((sw - s0) / 2, (sh - s0) / 2, s0)
        let oside := min (afScaleBack w h best.2.2) (min w h)
        let ox := max 0 (min (w - oside) (afScaleBack w h best.1))
        let oy := max 0 (min (h - oside) (afScaleBack w h best.2.1))
        let inner := center_square_crop oside oside
        ⟨(ox : ℤ) + inner.l, (oy : ℤ) + inner.t, (ox : ℤ) + inner.r, (oy : ℤ) + inner.b⟩

/-- Model of `main._normalize_boxes`: empty stays empty, five or more are
truncated to five, otherwise the last box is replicated up to five. -/
def normalize_boxes (boxes : List CropBox) : List CropBox :=
  if boxes = [] then []
  else if 5 ≤ boxes.length then boxes.take 5
  else boxes ++ List.replicate (5 - boxes.length) (boxes.getLast?.getD default)

/-- The per-slot box choice of `meme_generator.make_512_crops` (lines
459-461): slot `i` uses `crop_boxes[i] if i < len(crop_boxes) else
crop_boxes[0]`, and no box at all when the list is empty. -/
def slotBox (crop_boxes : List CropBox) (i : Nat) : Option CropBox :=
  if crop_boxes.isEmpty then none
  else some (if i < crop_boxes.length then crop_boxes.getD i default
             else crop_boxes.getD 0 default)

/-- Witness input for the box-padding claim: two supplied boxes. -/
def w8Boxes : List CropBox := [⟨0, 0, 1, 1, "a"⟩, ⟨1, 0, 1, 1, "b"⟩]


/-!
JSON model (`utils.py` and the `json` standard library).  `json.dumps` is
modelled with default separators `", "` / `": "` and `ensure_ascii=False`
(non-ASCII characters pass through raw); JSON numbers are restricted to
integers (the pipeline never round-trips floats); `json.loads` is modelled
by a fuel-indexed recursive-descent parser that accepts exactly one value
surrounded by whitespace, rejects unescaped control characters and invalid
escapes, and rejects `\uXXXX` surrogate code units (which Python would
accept); all functions reduce in the kernel.
-/

/-- The JSON values exchanged with the model. -/
inductive Json where
  | null
  | bool (b : Bool)
  | num (n : ℤ)
  | str (s : String)
  | arr (xs : List Json)
  | obj (kvs : List (String × Json))
  deriving Repr

/-- The decimal digit character for `n < 10`. -/
def digitChar (n : Nat) : Char := Char.ofNat (48 + n)

/-- Decimal digits of `n`, most significant first; fuel `n` suffices. -/
def dumpNatF : Nat → Nat → List Char
  | 0, n => [digitChar (n % 10)]
  | fuel + 1, n =>
    if n < 10 then [digitChar n] else dumpNatF fuel (n / 10) ++ [digitChar (n % 10)]

/-- Model of Python's decimal rendering of a non-negative int. -/
def dumpNat (n : Nat) : List Char := dumpNatF n n

/-- Model of Python's decimal rendering of an int (json.dumps for ints). -/
def dumpInt (n : ℤ) : List Char :=
  if n < 0 then '-' :: dumpNat n.natAbs else dumpNat n.toNat

/-- Lowercase hexadecimal digit for `n < 16`. -/
def hexDigit (n : Nat) : Char := if n < 10 then Char.ofNat (48 + n) else Char.ofNat (87 + n)

/-- JSON string escaping of one character, as `json.dumps` emits it:
the two mandatory escapes, the short control escapes, `\u00XX` for other
control characters, everything else raw (`ensure_ascii=False` model). -/
def escSeq (c : Char) : List Char :=
  if c = '"' then ['\\', '"']
  else if c = '\\' then ['\\', '\\']
  else if c = '\n' then ['\\', 'n']
  else if c = '\t' then ['\\', 't']
  else if c = '\r' then ['\\', 'r']
  else if c = (Char.ofNat 8) then ['\\', 'b']
  else if c = (Char.ofNat 12) then ['\\', 'f']
  else if c.toNat < 32 then ['\\', 'u', '0', '0', hexDigit (c.toNat / 16), hexDigit (c.toNat % 16)]
  else [c]

/-- JSON string-body escaping. -/
def escape (s : List Char) : List Char := s.flatMap escSeq

/-- A serialized JSON string literal. -/
def dumpStr (s : String) : List Char := '"' :: escape s.data ++ ['"']

mutual
/-- Model of `json.dumps` with the default separators `", "` and `": "`. -/
def dumpV : Json → List Char
  | .null => ("null").data
  | .bool true => ("true").data
  | .bool false => ("false").data
  | .num n => dumpInt n
  | .str s => dumpStr s
  | .arr [] => ['[', ']']
  | .arr (x :: xs) => '[' :: (dumpV x ++ dumpItems xs ++ [']'])
  | .obj [] => ['{', '}']
  | .obj ((k, v) :: kvs) =>
      '{' :: (dumpStr k ++ ':' :: ' ' :: dumpV v ++ dumpMembers kvs ++ ['}'])

/-- The `, `-separated tail items of a serialized array. -/
def dumpItems : List Json → List Char
  | [] => []
  | y :: ys => ',' :: ' ' :: dumpV y ++ dumpItems ys

/-- The `, `-separated tail members of a serialized object. -/
def dumpMembers : List (String × Json) → List Char
  | [] => []
  | (k, v) :: kvs => ',' :: ' ' :: dumpStr k ++ ':' :: ' ' :: dumpV v ++ dumpMembers kvs
end

mutual
/-- A structural size used only to bound parser fuel in the proofs. -/
def jsize : Json → Nat
  | .null => 1
  | .bool _ => 1
  | .num _ => 1
  | .str _ => 1
  | .arr xs => 1 + isize xs
  | .obj kvs => 1 + msize kvs

/-- Fuel needed for the items of an array: one unit per step, the deeper
of the current item and the remaining items. -/
def isize : List Json → Nat
  | [] => 1
  | x :: xs => 1 + max (jsize x) (isize xs)

/-- Fuel needed for the members of an object. -/
def msize : List (String × Json) → Nat
  | [] => 1
  | (_, v) :: kvs => 1 + max (jsize v) (msize kvs)
end

/-- JSON whitespace accepted between tokens by `json.loads`. -/
def jsonWs (c : Char) : Bool := c = ' ' || c = '\t' || c = '\n' || c = '\r'

/-- Skip JSON whitespace. -/
def skipJWs (l : List Char) : List Char := l.dropWhile jsonWs

/-- Is `c` a decimal digit? -/
def isDigit (c : Char) : Bool := 48 ≤ c.toNat && c.toNat ≤ 57

/-- Value of a decimal digit character. -/
def digVal (c : Char) : Nat := c.toNat - 48

/-- Greedy digit run, folding into an accumulator. -/
def parseDigits : List Char → Nat → Nat × List Char
  | [], acc => (acc, [])
  | c :: rest, acc =>
    if isDigit c then parseDigits rest (acc * 10 + digVal c) else (acc, c :: rest)

/-- An unsigned JSON number: `0` or a nonzero digit followed by digits
(Python's NUMBER_RE stops after a leading `0`). -/
def parseNumBody : List Char → Option (Nat × List Char)
  | [] => none
  | c :: rest =>
    if c = '0' then some (0, rest)
    else if isDigit c then some (parseDigits rest (digVal c))
    else none

/-- Value of a hexadecimal digit character. -/
def hexVal (c : Char) : Option Nat :=
  if 48 ≤ c.toNat ∧ c.toNat ≤ 57 then some (c.toNat - 48)
  else if 97 ≤ c.toNat ∧ c.toNat ≤ 102 then some (c.toNat - 87)
  else if 65 ≤ c.toNat ∧ c.toNat ≤ 70 then some (c.toNat - 55)
  else none

/-- Prepend a parsed character to a string-body parse result. -/
def consFst (c : Char) : Option (List Char × List Char) → Option (List Char × List Char)
  | none => none
  | some (s, r) => some (c :: s, r)

/-- Does the list start with the character `c`? -/
def headIs (l : List Char) (c : Char) : Bool :=
  match l with
  | d :: _ => d = c
  | [] => false

/-- One step of the string-body scan: `rec` continues after the consumed
escape or raw character. -/
def psbStep (rec : List Char → Option (List Char × List Char))
    (c : Char) (rest : List Char) : Option (List Char × List Char) :=
  if c = '"' then some ([], rest)
  else if c = '\\' then
    match rest with
    | [] => none
    | e :: rest2 =>
      if e = '"' then consFst '"' (rec rest2)
      else if e = '\\' then consFst '\\' (rec rest2)
      else if e = '/' then consFst '/' (rec rest2)
      else if e = 'b' then consFst (Char.ofNat 8) (rec rest2)
      else if e = 'f' then consFst (Char.ofNat 12) (rec rest2)
      else if e = 'n' then consFst '\n' (rec rest2)
      else if e = 'r' then consFst '\r' (rec rest2)
      else if e = 't' then consFst '\t' (rec rest2)
      else if e = 'u' then
        match rest2 with
        | h1 :: h2 :: h3 :: h4 :: rest3 =>
          match hexVal h1, hexVal h2, hexVal h3, hexVal h4 with
          | some a, some b2, some c3, some d =>
            let val := ((a * 16 + b2) * 16 + c3) * 16 + d
            if val.isValidChar then consFst (Char.ofNat val) (rec rest3)
            else none
          | _, _, _, _ => none
        | _ => none
      else none
  else if c.toNat < 32 then none
  else consFst c (rec rest)

/-- The body of a JSON string literal after the opening quote, as
`json.loads` scans it: strict about control characters and escapes.  One
fuel unit is spent per produced character, so fuel = input length always
suffices. -/
def parseStrBody : Nat → List Char → Option (List Char × List Char)
  | 0, _ => none
  | _, [] => none
  | fuel + 1, c :: rest => psbStep (parseStrBody fuel) c rest

/-- One step of the value parser on a non-empty input; `pm` and `pi`
continue into object members and array items at the next fuel level. -/
def pvStep (pm : List Char → Option (List (String × Json) × List Char))
    (pi : List Char → Option (List Json × List Char))
    (c : Char) (rest : List Char) : Option (Json × List Char) :=
  if c = '{' then
    let r1 := skipJWs rest
    if headIs r1 '}' then some (.obj [], r1.tail)
    else
      match pm r1 with
      | some (kvs, r2) => some (.obj kvs, r2)
      | none => none
  else if c = '[' then
    let r1 := skipJWs rest
    if headIs r1 ']' then some (.arr [], r1.tail)
    else
      match pi r1 with
      | some (xs, r2) => some (.arr xs, r2)
      | none => none
  else if c = '"' then
    match parseStrBody rest.length rest with
    | some (s, r2) => some (.str (String.mk s), r2)
    | none => none
  else if isPre ['t', 'r', 'u', 'e'] (c :: rest) then some (.bool true, (c :: rest).drop 4)
  else if isPre ['f', 'a', 'l', 's', 'e'] (c :: rest) then some (.bool false, (c :: rest).drop 5)
  else if isPre ['n', 'u', 'l', 'l'] (c :: rest) then some (.null, (c :: rest).drop 4)
  else if c = '-' then
    match parseNumBody rest with
    | some (n, r2) => some (.num (-(n : ℤ)), r2)
    | none => none
  else
    match parseNumBody (c :: rest) with
    | some (n, r2) => some (.num (n : ℤ), r2)
    | none => none

/-- One step of the member parser: `pv` parses the value, `pm` the next
member. -/
def pmStep (pv : List Char → Option (Json × List Char))
    (pm : List Char → Option (List (String × Json) × List Char))
    (c : Char) (rest : List Char) : Option (List (String × Json) × List Char) :=
  if c = '"' then
    match parseStrBody rest.length rest with
    | some (k, r1) =>
      let s1 := skipJWs r1
      if headIs s1 ':' then
        match pv (skipJWs s1.tail) with
        | some (v, r3) =>
          let s3 := skipJWs r3
          if headIs s3 ',' then
            match pm (skipJWs s3.tail) with
            | some (kvs, r5) => some ((String.mk k, v) :: kvs, r5)
            | none => none
          else if headIs s3 '}' then some ([(String.mk k, v)], s3.tail)
          else none
        | none => none
      else none
    | none => none
  else none

/-- One step of the item parser: `pv` parses the value, `pi` the next
item. -/
def piStep (pv : List Char → Option (Json × List Char))
    (pi : List Char → Option (List Json × List Char))
    (l : List Char) : Option (List Json × List Char) :=
  match pv l with
  | some (v, r1) =>
    let s1 := skipJWs r1
    if headIs s1 ',' then
      match pi (skipJWs s1.tail) with
      | some (xs, r3) => some (v :: xs, r3)
      | none => none
    else if headIs s1 ']' then some ([v], s1.tail)
    else none
  | none => none

mutual
/-- Fuel-indexed recursive-descent JSON value parser (model of the
decoding core of `json.loads`). -/
def parseVal : Nat → List Char → Option (Json × List Char)
  | 0, _ => none
  | fuel + 1, l =>
    match l with
    | [] => none
    | c :: rest => pvStep (parseMembers fuel) (parseItems fuel) c rest

/-- One or more `"key": value` members followed by `}`. -/
def parseMembers : Nat → List Char → Option (List (String × Json) × List Char)
  | 0, _ => none
  | fuel + 1, l =>
    match l with
    | [] => none
    | c :: rest => pmStep (parseVal fuel) (parseMembers fuel) c rest

/-- One or more array items followed by `]`. -/
def parseItems : Nat → List Char → Option (List Json × List Char)
  | 0, _ => none
  | fuel + 1, l => piStep (parseVal fuel) (parseItems fuel) l
end

/-- Model of `json.loads`: one value, surrounding whitespace allowed,
nothing after it. -/
def loads (l : List Char) : Option Json :=
  match parseVal (l.length + 1) (skipJWs l) with
  | some (v, rest) => if skipJWs rest = [] then some v else none
  | none => none

/-- Model of `utils._try_loads`: a successful parse is kept only when it
is a JSON object (`isinstance(parsed, dict)`). -/
def tryLoads (l : List Char) : Option Json :=
  match loads l with
  | some (.obj kvs) => some (.obj kvs)
  | _ => none

/-- The scan of `re.sub(r",\s*([}\]])", r"\1", s)` from
`utils._TRAILING_COMMA_RE`: at each comma, if skipping whitespace reaches
`}` or `]`, the comma and the whitespace are dropped and the scan resumes
after the closer; otherwise the scan moves past the comma.  One fuel unit
per consumed character. -/
def rtcF : Nat → List Char → List Char
  | 0, l => l
  | _, [] => []
  | fuel + 1, c :: rest =>
    if c = ',' then
      match rest.dropWhile isPyWs with
      | d :: rest3 =>
        if d = '}' ∨ d = ']' then d :: rtcF fuel rest3
        else ',' :: rtcF fuel rest
      | [] => ',' :: rtcF fuel rest
    else c :: rtcF fuel rest

/-- Model of the trailing-comma repair of `extract_json_object`. -/
def removeTrailingCommas (l : List Char) : List Char := rtcF l.length l

/-- The backtick character (code fences). -/
def tickC : Char := Char.ofNat 96

/-- Case-insensitive match of the literal `json` (the
`(?:json)?` group under `re.IGNORECASE`). -/
def stripJsonCI : List Char → Option (List Char)
  | c1 :: c2 :: c3 :: c4 :: rest =>
    if (c1 = 'j' ∨ c1 = 'J') ∧ (c2 = 's' ∨ c2 = 'S') ∧ (c3 = 'o' ∨ c3 = 'O') ∧
        (c4 = 'n' ∨ c4 = 'N') then some rest
    else none
  | _ => none

/-- Model of `re.sub(r"^```(?:json)?\\s*", "", candidate, flags=re.IGNORECASE)`
from `utils.py` line 27.  As in `safety.py`, the raw-string `\\s*` is regex
"literal backslash then a (case-insensitive) run of `s`", so the prefix
only matches when a real backslash follows the fence marker; the optional
`json` group backtracks to empty if no backslash follows it. -/
def subFenceOpen (l : List Char) : List Char :=
  match l with
  | a :: b :: c :: rest =>
    if a = tickC ∧ b = tickC ∧ c = tickC then
      match stripJsonCI rest with
      | some rest2 =>
        match rest2 with
        | '\\' :: rest3 => rest3.dropWhile (fun d => d = 's' ∨ d = 'S')
        | _ =>
          match rest with
          | '\\' :: rest3 => rest3.dropWhile (fun d => d = 's' ∨ d = 'S')
          | _ => l
      | none =>
        match rest with
        | '\\' :: rest3 => rest3.dropWhile (fun d => d = 's' ∨ d = 'S')
        | _ => l
    else l
  | _ => l

/-- Model of `re.sub(r"\\s*```$", "", candidate)` from `utils.py` line 28
(no IGNORECASE here): again the pattern demands a literal backslash, then a
run of `s`, then a closing fence at the very end; at most one match can
end at the end of the string, so the sub removes that suffix when present. -/
def subFenceClose (l : List Char) : List Char :=
  match l.reverse with
  | a :: b :: c :: revrest =>
    if a = tickC ∧ b = tickC ∧ c = tickC then
      match revrest.dropWhile (fun d => d = 's') with
      | '\\' :: rev3 => rev3.reverse
      | _ => l
    else l
  | _ => l

/-- Model of `utils.extract_json_object`.  The slice
`candidate[start : end + 1]` with `start = candidate.find("{")` and
`end = candidate.rfind("}")` is computed functionally: drop everything
before the first `\x7b`, then drop everything after the last `\x7d`; the
three error conditions (`start == -1`, `end == -1`, `end <= start`)
coincide with the slice being empty. -/
def extract_json_object (text : String) : Except String Json :=
  let candidate0 := stripL text.data
  if candidate0 = [] then .error "empty model response"
  else
    let candidate :=
      if isPre [tickC, tickC, tickC] candidate0 then
        stripL (subFenceClose (subFenceOpen candidate0))
      else candidate0
    match tryLoads candidate with
    | some v => .ok v
    | none =>
      match tryLoads (removeTrailingCommas candidate) with
      | some v => .ok v
      | none =>
        let s1 := candidate.dropWhile (fun c => ¬(c = '{'))
        let sliced := ((s1.reverse.dropWhile (fun c => ¬(c = '}'))).reverse)
        if sliced = [] then .error "no JSON object found in model response"
        else
          match tryLoads sliced with
          | some v => .ok v
          | none =>
            match tryLoads (removeTrailingCommas sliced) with
            | some v => .ok v
            | none => .error "invalid JSON after extraction/repair"

/-- A markdown code fence around a serialized payload. -/
def fenceWrap (l : List Char) : List Char :=
  ("```json\n").data ++ l ++ ("\n```").data

/-- Counterexample object for the trailing-comma clause: a string value
containing a comma directly before a bracket. -/
def cx3O : Json := .obj [("a", .num 1), ("b", .str ",]")]

/-- What `extract_json_object` actually returns on the comma-injected
serialization of `cx3O`: the repair regex also fires inside the string
value. -/
def cx3Wrong : Json := .obj [("a", .num 1), ("b", .str "]")]

/-- Witness object for the amended trailing-comma clause. -/
def w3O : Json := .obj [("a", .num 1)]

/-- A crop rectangle is a square of side at most `min w h` lying fully
inside a `w × h` image. -/
def RectOK (w h : ℕ) (rect : Rect) : Prop :=
  rect.r - rect.l = rect.b - rect.t ∧ rect.r - rect.l ≤ (min w h : ℤ) ∧
  0 ≤ rect.l ∧ 0 ≤ rect.t ∧ rect.r ≤ (w : ℤ) ∧ rect.b ≤ (h : ℤ)

/-- Accumulator view of the digit fold in `parseDigits`. -/
def nodAux (A : List Char) (acc : ℕ) : ℕ := A.foldl (fun a c => a * 10 + digVal c) acc

/-- The input does not start with a digit, so a digit run stops. -/
def notDigitHead : List Char → Prop
  | [] => True
  | c :: _ => isDigit c = false

/-- The input is empty or starts with a JSON delimiter. -/
def delimOk : List Char → Prop
  | [] => True
  | c :: _ => c = ',' ∨ c = '\x7d' ∨ c = ']'

/-- Model of `main._try_ai`: the service is called with `strict_retry`
false first; a parse failure or a validation failure triggers exactly one
strict retry whose own failure propagates.  Returns the outcome and the
number of generative-service calls made. -/
def tryAI {α : Type} (svc : Bool → String) (validate : Json → Except String α) :
    Except String α × Nat :=
  match extract_json_object (svc false) with
  | .error _ =>
    (match extract_json_object (svc true) with
     | .error e2 => (.error e2, 2)
     | .ok parsed2 => (validate parsed2, 2))
  | .ok parsed1 =>
    match validate parsed1 with
    | .ok obj1 => (.ok obj1, 1)
    | .error _ =>
      match extract_json_object (svc true) with
      | .error e2 => (.error e2, 2)
      | .ok parsed2 => (validate parsed2, 2)

/-- Model of `safety.DEFAULT_SUGGESTIONS`. -/
def DEFAULT_SUGGESTIONS : List String :=
  ["请尽量让脸部清晰、光线充足、避免背光",
   "尽量单人入镜，脸部占画面 1/3 以上",
   "避免强遮挡（口罩/帽檐压眼睛等）",
   "尽量正面或微侧，眼睛与嘴巴清楚可见"]

/-- Python `sep.join(xs)`. -/
def pyJoin (sep : String) : List String → String
  | [] => ""
  | [x] => x
  | x :: xs => x ++ sep ++ pyJoin sep xs

/-- The fields of a schema-valid `AIResult` that the upload handler reads
in its fallback-routing section. -/
structure AIResultM where
  allowed : Bool
  risk : String
  use_fallback : Bool
  fallback_reason : String
  suggestions : List String
  primary_label : String
  captions : List String
  boxes : List CropBox

/-- The state the upload handler derives from a schema-valid AI result. -/
structure UploadOut where
  fallback_used : Bool
  fallback_reason : String
  suggestions : List String
  captions : List String
  captions_source : String
  crop_boxes : List CropBox

/-- Model of `main.upload` lines 230-259 (the `ai_obj is not None` branch,
starting from the initial state `fallback_used=False`, `fallback_reason=""`,
`suggestions=[]`, `captions_source="fallback"`): the safety/risk/fallback
gate, the caption pass through `ensure_5_safe_captions`, and the crop-box
choice.  `applyMouth` abstracts `_apply_mouth_closeup`, applied when the
user asked for mouth close-ups. -/
def processAIResult (applyMouth : List CropBox → List CropBox) (mouthPref : Bool)
    (ai : AIResultM) : UploadOut :=
  let expression_label := pick_expression_label ai.primary_label
  let fb1 : Bool × String × List String :=
    if (ai.allowed = false) ∨ ai.risk = "high" ∨ ai.use_fallback = true then
      let reasons :=
        (if ai.allowed = false then ["safety 不通过"] else [])
          ++ (if ai.risk = "high" then ["risk=high"] else [])
          ++ (if ai.use_fallback = true then
                [pyStrip ("model_fallback: " ++ ai.fallback_reason)]
              else [])
      let joined := pyJoin "；" (reasons.filter (fun r => ¬ r = ""))
      let fallback_reason := if joined = "" then "启用回退" else joined
      let suggestions := if ai.suggestions = [] then DEFAULT_SUGGESTIONS else ai.suggestions
      (true, fallback_reason, suggestions)
    else (false, "", [])
  let ec := ensure_5_safe_captions ai.captions expression_label
  let fallback_used := fb1.1 || ec.2
  let fallback_reason :=
    if ec.2 then (if fb1.2.1 = "" then "文案合规过滤触发兜底" else fb1.2.1) else fb1.2.1
  let suggestions :=
    if ec.2 then (if fb1.2.2 = [] then DEFAULT_SUGGESTIONS else fb1.2.2) else fb1.2.2
  let captions_source := if ec.2 then "fallback" else "ai_original"
  let crop_boxes :=
    if fallback_used = false then
      let nb := normalize_boxes ai.boxes
      if mouthPref ∧ ¬ nb = [] then applyMouth nb else nb
    else []
  ⟨fallback_used, fallback_reason, suggestions, ec.1, captions_source, crop_boxes⟩

/-- Counterexample AI result for the risk gate: `risk="high"` but five
short safe captions of its own. -/
def cx7AI : AIResultM :=
  ⟨true, "high", false, "", [], "开心", ["一", "二", "三", "四", "五"],
    [⟨0, 0, 1, 1, "f"⟩]⟩

/-- Witness service for the retry bound: the plain call returns
unparsable text, the strict call returns a JSON object. -/
def c4Svc (strict : Bool) : String := if strict then "\x7b\"a\": 1\x7d" else "nope"

/-- Witness validator: accept every parsed JSON value. -/
def c4Val (j : Json) : Except String Json := Except.ok j



/-! Helper lemmas about the caption safety filter. -/

theorem mem_ensure5Go {cs : List String} :
    ∀ {safe : List String}, (∀ x ∈ safe, is_caption_safe x = true) →
    ∀ s ∈ ensure5Go cs safe, is_caption_safe s = true := by
  induction cs with
  | nil => intro safe hsafe s hs; exact hsafe s hs
  | cons c cs ih =>
    intro safe hsafe s hs
    simp only [ensure5Go] at hs
    set safe' := if is_caption_safe (sanitize_caption c) = true
        then safe ++ [sanitize_caption c] else safe with hdef
    have hall : ∀ x ∈ safe', is_caption_safe x = true := by
      rw [hdef]
      split
      · next hg =>
        intro x hx
        rcases List.mem_append.mp hx with h1 | h2
        · exact hsafe x h1
        · simp at h2; simpa [h2] using hg
      · exact hsafe
    split at hs
    · exact hall s hs
    · exact ih hall s hs

theorem mem_padF {fb : List String} :
    ∀ {fuel : Nat} {safe : List String}, ∀ x ∈ padF fb fuel safe,
      x ∈ safe ∨ ∃ i, i < 5 ∧ x = fb.getD i "" := by
  intro fuel
  induction fuel with
  | zero => intro safe x hx; exact Or.inl hx
  | succ fuel ih =>
    intro safe x hx
    simp only [padF] at hx
    split at hx
    · next hlt =>
      rcases ih x hx with h1 | h2
      · rcases List.mem_append.mp h1 with h3 | h4
        · exact Or.inl h3
        · simp only [List.mem_singleton] at h4
          exact Or.inr ⟨safe.length, by omega, h4⟩
      · exact Or.inr h2
    · exact Or.inl hx

theorem length_ensure5Go_le {cs : List String} :
    ∀ {safe : List String}, safe.length < 5 → (ensure5Go cs safe).length ≤ 5 := by
  induction cs with
  | nil => intro safe h; simpa [ensure5Go] using Nat.le_of_lt h
  | cons c cs ih =>
    intro safe h
    simp only [ensure5Go]
    set safe' := if is_caption_safe (sanitize_caption c) = true
        then safe ++ [sanitize_caption c] else safe with hdef
    have hlen : safe'.length ≤ safe.length + 1 := by
      rw [hdef]; split <;> simp
    split
    · next hge => omega
    · next hlt => exact ih (by omega)

theorem length_padF {fb : List String} :
    ∀ {fuel : Nat} {safe : List String}, safe.length ≤ 5 → 5 ≤ safe.length + fuel →
      (padF fb fuel safe).length = 5 := by
  intro fuel
  induction fuel with
  | zero => intro safe h1 h2; simp only [padF]; omega
  | succ fuel ih =>
    intro safe h1 h2
    simp only [padF]
    split
    · next hlt =>
      have := @ih (safe ++ [fb.getD safe.length ""])
        (by simp; omega) (by simp; omega)
      simpa using this
    · next hge => omega

theorem fallback_pool_safe (label : Label) :
    ∀ i < 5, is_caption_safe ((get_fallback_captions label 5).getD i "") = true := by
  cases label <;> decide

theorem mem_ensure_5_safe_captions {candidates : List String} {label : Label} :
    ∀ s ∈ (ensure_5_safe_captions candidates label).1, is_caption_safe s = true := by
  intro s hs
  simp only [ensure_5_safe_captions] at hs
  split at hs
  · exact mem_ensure5Go (by simp) s (List.mem_of_mem_take hs)
  · rcases mem_padF s hs with h1 | ⟨i, hi, rfl⟩
    · exact mem_ensure5Go (by simp) s h1
    · exact fallback_pool_safe label i hi

theorem is_caption_safe_shape {s : String} (h : is_caption_safe s = true) :
    s ≠ "" ∧ (pyStrip s).length ≤ 60 := by
  simp only [is_caption_safe, Bool.and_eq_true, Bool.not_eq_true',
    decide_eq_true_eq] at h
  obtain ⟨⟨h1, h2⟩, _⟩ := h
  constructor
  · intro hempty
    rw [hempty] at h1
    simp [stripL, List.isEmpty] at h1
  · simpa [pyStrip, String.length] using h2

/-! Claim theorems for the caption safety filter. -/

/-- C1 (counterexample): as stated the claim is false.  For the single
candidate consisting of sixty letters `a` followed by a space and a full
stop, `sanitize_caption` strips the full stop last and leaves a trailing
space that `str.strip()` had no chance to remove, so `is_caption_safe`
(which measures the *stripped* string) accepts a 61-character caption, and
`ensure_5_safe_captions` returns it verbatim: the first returned string has
61 characters, contradicting "each at most 60 characters long". -/
theorem C1_cx :
    ((ensure_5_safe_captions [String.mk (List.replicate 60 'a' ++ [' ', '.'])]
        Label.uncertain).1.length = 5) ∧
    ((ensure_5_safe_captions [String.mk (List.replicate 60 'a' ++ [' ', '.'])]
        Label.uncertain).1.getD 0 "").length = 61 := by
  decide

/-- C1 (amended): for every input list of candidate caption strings
(including the empty list) and every expression label,
`ensure_5_safe_captions` returns a list of exactly 5 strings, each
non-empty and each at most 60 characters long after stripping surrounding
whitespace (the unstripped string can exceed 60 characters, see `C1_cx`). -/
theorem C1_amended (candidates : List String) (label : Label) :
    ((ensure_5_safe_captions candidates label).1.length = 5) ∧
    ∀ s ∈ (ensure_5_safe_captions candidates label).1,
      s ≠ "" ∧ (pyStrip s).length ≤ 60 := by
  constructor
  · simp only [ensure_5_safe_captions, padFallback]
    split
    · next h => simp only [List.length_take]; omega
    · next h =>
      have h0 : (ensure5Go candidates []).length ≤ 5 :=
        length_ensure5Go_le (by simp)
      exact length_padF (by omega) (by omega)
  · intro s hs
    exact is_caption_safe_shape (mem_ensure_5_safe_captions s hs)

/-- C1 (witness): the amended theorem applied to the empty candidate list
and the "uncertain" label, at the first returned caption "收到". -/
theorem C1_witness :
    ((ensure_5_safe_captions [] Label.uncertain).1.length = 5) ∧
    (("收到" : String) ≠ "" ∧ (pyStrip ("收到")).length ≤ 60) :=
  ⟨(C1_amended [] Label.uncertain).1,
   (C1_amended [] Label.uncertain).2 ("收到") (by decide)⟩

/-- C9: the claim says `sanitize_caption` collapses every run of whitespace
characters to a single space; the code is wrong.  `safety.py` line 48 uses
the raw-string pattern `r"\\s+"`, which matches a literal backslash followed
by letters `s`, not whitespace, so interior whitespace runs survive intact:
on the failing input "a  b" (two interior spaces) the code returns "a  b"
unchanged where the claim requires "a b". -/
theorem C9_code_eval :
    sanitize_caption ("a  b") = "a  b" ∧ ("a  b" : String) ≠ "a b" := by
  decide

/-- C10: for every input list of candidate strings and every expression
label, all strings returned by `ensure_5_safe_captions` satisfy
`is_caption_safe` — candidates are only kept after passing the check, and
padding draws exclusively from the first five entries of the chosen static
pool, each of which is safe (`fallback_pool_safe`). -/
theorem C10_all_safe (candidates : List String) (label : Label) :
    ∀ s ∈ (ensure_5_safe_captions candidates label).1, is_caption_safe s = true :=
  mem_ensure_5_safe_captions

/-- C10 (witness): the theorem applied to the empty candidate list and the
"uncertain" label, at the member "收到". -/
theorem C10_witness : is_caption_safe ("收到") = true :=
  C10_all_safe [] Label.uncertain ("收到") (by decide)

/-! Helper lemmas about candidate selection. -/

theorem fill_extends (t mm mpi : Nat) :
    ∀ (cs sel : List CropCandidate), ∃ ext, fillF t mm mpi cs sel = sel ++ ext := by
  intro cs
  induction cs with
  | nil => intro sel; exact ⟨[], by simp [fillF]⟩
  | cons c cs ih =>
    intro sel
    simp only [fillF]
    split
    · exact ⟨[], by simp⟩
    · split
      · exact ih sel
      · split
        · exact ih sel
        · split
          · exact ih sel
          · obtain ⟨ext, hext⟩ := ih (sel ++ [c])
            exact ⟨c :: ext, by simp [hext]⟩

theorem keyMem_append {c : CropCandidate} {sel ext : List CropCandidate}
    (h : keyMem c sel = true) : keyMem c (sel ++ ext) = true := by
  simp only [keyMem, List.any_append, Bool.or_eq_true]
  exact Or.inl h

theorem keyMem_self_append (c : CropCandidate) (sel : List CropCandidate) :
    keyMem c (sel ++ [c]) = true := by
  simp [keyMem]

theorem perImage_le_length (sel : List CropCandidate) (src : Nat) :
    perImage sel src ≤ sel.length :=
  List.length_filter_le _ _

theorem mouthCount_append_one (sel : List CropCandidate) (c : CropCandidate) :
    mouthCount (sel ++ [c]) =
      mouthCount sel + (if c.crop_type = CropType.mouth then 1 else 0) := by
  simp only [mouthCount, List.filter_append]
  split <;> next h => simp [List.filter, h]

theorem fill_mouth_le {t mm mpi : Nat} :
    ∀ {cs sel : List CropCandidate}, mouthCount sel ≤ mm →
      mouthCount (fillF t mm mpi cs sel) ≤ mm := by
  intro cs
  induction cs with
  | nil => intro sel h; simpa [fillF] using h
  | cons c cs ih =>
    intro sel h
    simp only [fillF]
    split
    · exact h
    · split
      · exact ih h
      · split
        · exact ih h
        · split
          · exact ih h
          · next hcond =>
            apply ih
            rw [mouthCount_append_one]
            by_cases hm : c.crop_type = CropType.mouth
            · push_neg at hcond
              have := hcond hm
              simp only [hm, if_true]
              omega
            · simp only [hm, if_false]
              simpa using h

theorem fill_covers_face {t mm : Nat} :
    ∀ {cs sel : List CropCandidate} {c : CropCandidate},
      c ∈ cs → c.crop_type = CropType.face →
      t ≤ (fillF t mm t cs sel).length ∨ keyMem c (fillF t mm t cs sel) = true := by
  intro cs
  induction cs with
  | nil => intro sel c hc _; simp at hc
  | cons c' cs ih =>
    intro sel c hc hface
    simp only [fillF]
    by_cases h1 : t ≤ sel.length
    · rw [if_pos h1]; exact Or.inl h1
    rw [if_neg h1]
    rcases List.mem_cons.mp hc with rfl | hmem
    · by_cases h2 : keyMem c sel = true
      · rw [if_pos h2]
        obtain ⟨ext, hext⟩ := fill_extends t mm t cs sel
        rw [hext]
        exact Or.inr (keyMem_append h2)
      · rw [if_neg h2]
        have h3 : ¬(t ≤ perImage sel c.src_index) := by
          have := perImage_le_length sel c.src_index
          omega
        rw [if_neg h3]
        have h4 : ¬(c.crop_type = CropType.mouth ∧ mm ≤ mouthCount sel) := by
          rintro ⟨hmm, _⟩
          rw [hface] at hmm
          cases hmm
        rw [if_neg h4]
        obtain ⟨ext, hext⟩ := fill_extends t mm t cs (sel ++ [c])
        rw [hext]
        exact Or.inr (@keyMem_append _ (sel ++ [c]) ext (keyMem_self_append c sel))
    · split
      · exact ih hmem hface
      · split
        · exact ih hmem hface
        · split
          · exact ih hmem hface
          · exact ih hmem hface

theorem stageNext_mouth_le {ranked : List CropCandidate} {mm t mpi : Nat}
    {sel : List CropCandidate} (h : mouthCount sel ≤ mm) :
    mouthCount (stageNext ranked mm t mpi sel) ≤ mm := by
  unfold stageNext
  split
  · exact fill_mouth_le h
  · exact h

theorem stageNext_covers {ranked : List CropCandidate} {mm t : Nat}
    {sel : List CropCandidate} (hlen : (stageNext ranked mm t t sel).length < t) :
    ∀ c ∈ ranked, c.crop_type = CropType.face →
      keyMem c (stageNext ranked mm t t sel) = true := by
  intro c hc hface
  rw [stageNext] at hlen ⊢
  by_cases hsel : sel.length < t
  · rw [if_pos hsel] at hlen ⊢
    rcases @fill_covers_face t mm ranked sel c hc hface with h | h
    · exact absurd hlen (by omega)
    · exact h
  · rw [if_neg hsel] at hlen
    exact absurd hlen hsel

theorem pickStage4_mouth_le (ranked : List CropCandidate) (mm t : Nat) :
    mouthCount (pickStage4 ranked mm t) ≤ mm := by
  unfold pickStage4
  apply stageNext_mouth_le
  apply stageNext_mouth_le
  apply stageNext_mouth_le
  apply fill_mouth_le
  simp [mouthCount]

theorem pickStage4_covers {ranked : List CropCandidate} {mm t : Nat}
    (h : (pickStage4 ranked mm t).length < t) :
    ∀ c ∈ ranked, c.crop_type = CropType.face →
      keyMem c (pickStage4 ranked mm t) = true := by
  rw [pickStage4] at h ⊢
  exact stageNext_covers h

theorem insDesc_perm (x : CropCandidate) : ∀ l, (insDesc x l).Perm (x :: l) := by
  intro l
  induction l with
  | nil => simp [insDesc]
  | cons y ys ih =>
    simp only [insDesc]
    split
    · exact (List.Perm.cons y ih).trans (List.Perm.swap x y ys)
    · exact List.Perm.refl _

theorem sortDesc_perm (l : List CropCandidate) : (sortDesc l).Perm l := by
  suffices h : ∀ (l acc : List CropCandidate),
      (l.foldl (fun acc x => insDesc x acc) acc).Perm (l ++ acc) by
    simpa using h l []
  intro l
  induction l with
  | nil => intro acc; simp
  | cons x xs ih =>
    intro acc
    simp only [List.foldl_cons]
    have h1 := ih (insDesc x acc)
    have h2 : (xs ++ insDesc x acc).Perm (xs ++ (x :: acc)) :=
      List.Perm.append_left xs (insDesc_perm x acc)
    have h3 : (xs ++ (x :: acc)).Perm (x :: (xs ++ acc)) := List.perm_middle
    exact ((h1.trans h2).trans h3)

theorem mouthCount_take_le (l : List CropCandidate) (n : Nat) :
    mouthCount (l.take n) ≤ mouthCount l := by
  simpa [mouthCount] using
    List.Sublist.length_le (List.Sublist.filter _ (List.take_sublist n l))

/-! Claim theorems for candidate selection. -/

/-- C2 (counterexample): as stated the claim is false.  `cxCands` contains
four face candidates — enough to fill the `target - max_mouth = 4` slots
remaining after the mouth quota — yet `pick_top_5` returns four mouth
candidates against `max_mouth = 1`: the face candidates all share one
`(src_index, crop_type)` key, so the fill passes select only two items, and
the final padding loop duplicates the top-ranked mouth candidate. -/
theorem C2_cx :
    ((cxCands.filter (fun c => c.crop_type = CropType.face)).length = 4) ∧
    (pick_top_5 cxCands 1 5).length = 5 ∧
    mouthCount (pick_top_5 cxCands 1 5) = 4 := by
  decide

/-- C2 (amended): for every non-empty candidate list, `pick_top_5` returns
exactly `target` candidates; and whenever the input contains face candidates
covering at least `target` pairwise-distinct source indices (so the fill
passes can reach `target` without the padding loop), the returned list
contains at most `max_mouth` mouth candidates.  (The original premise
"enough face candidates to fill the slots remaining after the mouth quota"
is insufficient: see `C2_cx`.) -/
theorem C2_amended (candidates : List CropCandidate) (max_mouth target : Nat)
    (hne : candidates ≠ []) :
    (pick_top_5 candidates max_mouth target).length = target ∧
    (target ≤ ((candidates.filter (fun c => c.crop_type = CropType.face)).map
        (fun c => c.src_index)).dedup.length →
      mouthCount (pick_top_5 candidates max_mouth target) ≤ max_mouth) := by
  have hemp : candidates.isEmpty = false := by
    simpa [List.isEmpty_iff] using hne
  constructor
  · simp only [pick_top_5, hemp, Bool.false_eq_true, if_false]
    set s4 := pickStage4 (sortDesc candidates) max_mouth target with hs4
    set s5 := if s4.isEmpty then [(sortDesc candidates).headD default] else s4 with hs5
    simp only [List.length_take, List.length_append, List.length_replicate]
    omega
  · intro hH
    simp only [pick_top_5, hemp, Bool.false_eq_true, if_false]
    by_cases hlen : target ≤ (pickStage4 (sortDesc candidates) max_mouth target).length
    · by_cases hemp4 : (pickStage4 (sortDesc candidates) max_mouth target).isEmpty = true
      · have h0 : (pickStage4 (sortDesc candidates) max_mouth target).length = 0 := by
          rcases List.isEmpty_iff.mp hemp4 with h
          simp [h]
        have ht : target = 0 := by omega
        simp [hemp4, ht, mouthCount]
      · have hb : (pickStage4 (sortDesc candidates) max_mouth target).isEmpty = false := by
          simpa using hemp4
        simp only [hb, Bool.false_eq_true, if_false]
        have hrep : target - (pickStage4 (sortDesc candidates) max_mouth target).length = 0 := by
          omega
        rw [hrep]
        simp only [List.replicate_zero, List.append_nil]
        exact le_trans (mouthCount_take_le _ _) (pickStage4_mouth_le _ _ _)
    · exfalso
      push_neg at hlen
      have hcov := pickStage4_covers hlen
      set s4 := pickStage4 (sortDesc candidates) max_mouth target with hs4
      have hsub : ∀ x ∈ ((candidates.filter (fun c => c.crop_type = CropType.face)).map
            (fun c => c.src_index)),
          x ∈ ((s4.filter (fun s => s.crop_type = CropType.face)).map
            (fun s => s.src_index)) := by
        intro x hx
        obtain ⟨c, hc, rfl⟩ := List.mem_map.mp hx
        obtain ⟨hcmem, hcface⟩ := List.mem_filter.mp hc
        have hcface' : c.crop_type = CropType.face := by simpa using hcface
        have hcr : c ∈ sortDesc candidates := (sortDesc_perm candidates).mem_iff.mpr hcmem
        have hkey := hcov c hcr hcface'
        simp only [keyMem, List.any_eq_true, decide_eq_true_eq] at hkey
        obtain ⟨s, hs, hsrc, htype⟩ := hkey
        refine List.mem_map.mpr ⟨s, List.mem_filter.mpr ⟨hs, ?_⟩, hsrc.symm ▸ rfl⟩
        simp [htype, hcface']
      have h1 : ((candidates.filter (fun c => c.crop_type = CropType.face)).map
            (fun c => c.src_index)).toFinset ⊆
          ((s4.filter (fun s => s.crop_type = CropType.face)).map
            (fun s => s.src_index)).toFinset := by
        intro x hx
        rw [List.mem_toFinset] at hx ⊢
        exact hsub x hx
      have h2 := Finset.card_le_card h1
      rw [List.card_toFinset, List.card_toFinset] at h2
      have h3 := List.Sublist.length_le
        (List.dedup_sublist ((s4.filter (fun s => s.crop_type = CropType.face)).map
          (fun s => s.src_index)))
      rw [List.length_map] at h3
      have h5 := List.length_filter_le (fun s => decide (s.crop_type = CropType.face)) s4
      omega

/-- C2 (witness): the amended theorem applied to `w2Cands` with
`max_mouth = 1`, `target = 5`. -/
theorem C2_witness :
    (pick_top_5 w2Cands 1 5).length = 5 ∧ mouthCount (pick_top_5 w2Cands 1 5) ≤ 1 :=
  ⟨(C2_amended w2Cands 1 5 (by decide)).1,
   (C2_amended w2Cands 1 5 (by decide)).2 (by decide)⟩

/-! Helper lemmas about the geometry engine. -/

theorem center_square_crop_ok (w h : ℕ) : RectOK w h (center_square_crop w h) := by
  simp only [RectOK, center_square_crop]
  have h1 : min w h ≤ w := Nat.min_le_left _ _
  have h2 : min w h ≤ h := Nat.min_le_right _ _
  have h3 : (w - min w h) / 2 ≤ w - min w h := Nat.div_le_self _ _
  have h4 : (h - min w h) / 2 ≤ h - min w h := Nat.div_le_self _ _
  refine ⟨by push_cast; omega, by push_cast; omega, by positivity, by positivity,
    by push_cast; omega, by push_cast; omega⟩

theorem sfbClamped_bounds (w h : ℕ) (box : CropBox) :
    0 ≤ (sfbClamped w h box).1 ∧ 0 ≤ (sfbClamped w h box).2.1 ∧
    (sfbClamped w h box).2.2.1 ≤ (w : ℤ) ∧ (sfbClamped w h box).2.2.2 ≤ (h : ℤ) := by
  simp only [sfbClamped]
  exact ⟨le_max_left _ _, le_max_left _ _, min_le_left _ _, min_le_left _ _⟩

theorem rect_assemble {w h li ti ri bi : ℤ}
    (hli : 0 ≤ li) (hti : 0 ≤ ti) (hri : ri ≤ w) (hbi : bi ≤ h)
    (h1 : 10 < ri - li) (h2 : 10 < bi - ti) :
    (li + (center_square_crop (ri - li).toNat (bi - ti).toNat).r) -
      (li + (center_square_crop (ri - li).toNat (bi - ti).toNat).l) =
    (ti + (center_square_crop (ri - li).toNat (bi - ti).toNat).b) -
      (ti + (center_square_crop (ri - li).toNat (bi - ti).toNat).t) ∧
    10 < (li + (center_square_crop (ri - li).toNat (bi - ti).toNat).r) -
      (li + (center_square_crop (ri - li).toNat (bi - ti).toNat).l) ∧
    0 ≤ li + (center_square_crop (ri - li).toNat (bi - ti).toNat).l ∧
    0 ≤ ti + (center_square_crop (ri - li).toNat (bi - ti).toNat).t ∧
    li + (center_square_crop (ri - li).toNat (bi - ti).toNat).r ≤ w ∧
    ti + (center_square_crop (ri - li).toNat (bi - ti).toNat).b ≤ h := by
  set cw := (ri - li).toNat with hcw
  set ch := (bi - ti).toNat with hch
  have hcw' : (cw : ℤ) = ri - li := by rw [hcw]; exact Int.toNat_of_nonneg (by omega)
  have hch' : (ch : ℤ) = bi - ti := by rw [hch]; exact Int.toNat_of_nonneg (by omega)
  simp only [center_square_crop]
  have hmin1 : min cw ch ≤ cw := Nat.min_le_left _ _
  have hmin2 : min cw ch ≤ ch := Nat.min_le_right _ _
  have hmin3 : 10 < min cw ch := by
    have hc1 : 10 < cw := by omega
    have hc2 : 10 < ch := by omega
    omega
  have hd1 : (cw - min cw ch) / 2 ≤ cw - min cw ch := Nat.div_le_self _ _
  have hd2 : (ch - min cw ch) / 2 ≤ ch - min cw ch := Nat.div_le_self _ _
  refine ⟨by push_cast; omega, by push_cast; omega, by positivity, by positivity,
    by push_cast; omega, by push_cast; omega⟩

theorem af_main_ok (w h ox0 oy0 oside0 : ℕ) :
    RectOK w h
      (let oside := min oside0 (min w h)
       let ox := max 0 (min (w - oside) ox0)
       let oy := max 0 (min (h - oside) oy0)
       let inner := center_square_crop oside oside
       ⟨(ox : ℤ) + inner.l, (oy : ℤ) + inner.t, (ox : ℤ) + inner.r, (oy : ℤ) + inner.b⟩) := by
  simp only [RectOK, center_square_crop, Nat.min_self, Nat.sub_self, Nat.zero_div]
  refine ⟨by push_cast; omega, by push_cast; omega, by positivity, by positivity,
    by push_cast; omega, by push_cast; omega⟩

/-! Claim theorems for the geometry engine. -/

/-- C5: for every image size and every crop box, `square_from_box` either
falls through to the auto-focus heuristic (`none`) or returns a crop that
is exactly square, has side strictly greater than 10 pixels, and lies
fully inside the image bounds. -/
theorem C5_square_from_box (w h : ℕ) (box : CropBox) :
    match square_from_box w h box with
    | none => True
    | some rect =>
        rect.r - rect.l = rect.b - rect.t ∧ 10 < rect.r - rect.l ∧
        0 ≤ rect.l ∧ 0 ≤ rect.t ∧ rect.r ≤ (w : ℤ) ∧ rect.b ≤ (h : ℤ) := by
  obtain ⟨hli, hti, hri, hbi⟩ := sfbClamped_bounds w h box
  simp only [square_from_box]
  split
  · trivial
  · next rect heq =>
    split at heq
    · exact Option.noConfusion heq
    · next hcond =>
      obtain ⟨hA, hB⟩ := not_or.mp hcond
      obtain rfl : _ = rect := (Option.some.injEq _ _).mp heq
      exact rect_assemble hli hti hri hbi (by omega) (by omega)

/-- C6: for every image (any score function, i.e. any pixel content) whose
shorter side is at least 2 pixels, `auto_focus_square_crop` returns a crop
that is square, has side at most `min w h`, and lies fully inside the image
bounds; and images whose shorter side is below 96 pixels get the plain
center-square crop. -/
theorem C6_auto_focus (w h : ℕ) (rectScore : ℕ → ℕ → ℕ → ℚ) :
    (2 ≤ min w h → RectOK w h (auto_focus_square_crop w h rectScore)) ∧
    (min w h < 96 → auto_focus_square_crop w h rectScore = center_square_crop w h) := by
  constructor
  · intro _
    simp only [auto_focus_square_crop]
    split
    · exact center_square_crop_ok w h
    · split
      · exact center_square_crop_ok w h
      · split
        · exact center_square_crop_ok w h
        · exact af_main_ok w h _ _ _
  · intro hlt
    simp only [auto_focus_square_crop]
    rw [if_pos hlt]

/-- C6 (witness): the theorem applied to a 50×50 image (shorter side ≥ 2
and < 96) with the zero score function. -/
theorem C6_witness :
    RectOK 50 50 (auto_focus_square_crop 50 50 (fun _ _ _ => 0)) ∧
    auto_focus_square_crop 50 50 (fun _ _ _ => 0) = center_square_crop 50 50 :=
  ⟨(C6_auto_focus 50 50 (fun _ _ _ => 0)).1 (by decide),
   (C6_auto_focus 50 50 (fun _ _ _ => 0)).2 (by decide)⟩

/-- C8: when fewer than 5 crop boxes are supplied (but at least one), the
pipeline pads to exactly 5 slots — `_normalize_boxes` replicates the last
supplied box up to length 5, and the per-slot choice of `make_512_crops`
then hands every slot beyond the supplied ones that final box. -/
theorem C8_box_padding (boxes : List CropBox) (hne : boxes ≠ [])
    (hlt : boxes.length < 5) :
    ∀ i < 5, slotBox (normalize_boxes boxes) i =
      some (if i < boxes.length then boxes.getD i default
            else boxes.getLast?.getD default) := by
  intro i hi
  have hx : normalize_boxes boxes =
      boxes ++ List.replicate (5 - boxes.length) (boxes.getLast?.getD default) := by
    rw [normalize_boxes, if_neg hne, if_neg (by omega)]
  have hlen : (normalize_boxes boxes).length = 5 := by
    rw [hx]; simp; omega
  rw [slotBox, if_neg (by simp [List.isEmpty_iff, hx, ← List.length_eq_zero]; omega),
    if_pos (by omega)]
  rw [hx]
  by_cases hib : i < boxes.length
  · rw [if_pos hib, List.getD_append _ _ _ _ hib]
  · rw [if_neg hib]
    rw [List.getD_eq_getElem?_getD, List.getElem?_append_right (by omega),
      List.getElem?_replicate]
    rw [if_pos (by omega)]
    simp

/-- C8 (witness): the theorem applied to the two supplied boxes of
`w8Boxes` at slot 4, which receives the final supplied box. -/
theorem C8_witness :
    slotBox (normalize_boxes w8Boxes) 4 =
      some (if 4 < w8Boxes.length then w8Boxes.getD 4 default
            else w8Boxes.getLast?.getD default) :=
  C8_box_padding w8Boxes (by decide) (by decide) 4 (by decide)


/-! Helper lemmas for the JSON round trip. -/

theorem charToNat_ofNat {n : Nat} (h : n.isValidChar) : (Char.ofNat n).toNat = n := by
  have h32 : n < 4294967296 := by rcases h with h | ⟨_, h⟩ <;> omega
  simp [Char.ofNat, Char.ofNatAux, Char.toNat, h, UInt32.toNat, BitVec.toNat_ofNat]

theorem hexVal_hexDigit {m : Nat} (h : m < 16) : hexVal (hexDigit m) = some m := by
  interval_cases m <;> decide

theorem consFst_some {c : Char} {o : Option (List Char × List Char)} {s : List Char}
    {r : List Char} (h : o = some (s, r)) : consFst c o = some (c :: s, r) := by
  rw [h]; rfl

theorem parseStrBody_step (c : Char) (tail : List Char) (fuel : ℕ) :
    parseStrBody (fuel + 1) (escSeq c ++ tail) = consFst c (parseStrBody fuel tail) := by
  by_cases h8 : c.toNat < 32
  · obtain ⟨n, hn, rfl⟩ : ∃ n, n < 32 ∧ c = Char.ofNat n :=
      ⟨c.toNat, h8, (Char.ofNat_toNat c).symm⟩
    interval_cases n <;> rfl
  by_cases h1 : c = '"'
  · subst h1; rfl
  by_cases h2 : c = '\\'
  · subst h2; rfl
  have h3 : ¬c = '\n' := fun h => h8 (by rw [h]; decide)
  have h4 : ¬c = '\t' := fun h => h8 (by rw [h]; decide)
  have h5 : ¬c = '\r' := fun h => h8 (by rw [h]; decide)
  have h6 : ¬c = (Char.ofNat 8) := fun h => h8 (by rw [h]; decide)
  have h7 : ¬c = (Char.ofNat 12) := fun h => h8 (by rw [h]; decide)
  simp only [escSeq, if_neg h1, if_neg h2, if_neg h3, if_neg h4, if_neg h5, if_neg h6,
    if_neg h7, if_neg h8, List.cons_append, List.nil_append]
  rw [parseStrBody]
  simp only [psbStep, if_neg h1, if_neg h2, if_neg h8]

theorem parseStrBody_escape :
    ∀ (s : List Char) (rest : List Char) (fuel : ℕ), s.length < fuel →
      parseStrBody fuel (escape s ++ ('"' :: rest)) = some (s, rest) := by
  intro s
  induction s with
  | nil =>
    intro rest fuel hf
    obtain ⟨f, rfl⟩ : ∃ f, fuel = f + 1 := ⟨fuel - 1, by omega⟩
    rfl
  | cons c s ih =>
    intro rest fuel hf
    obtain ⟨f, rfl⟩ : ∃ f, fuel = f + 1 := ⟨fuel - 1, by omega⟩
    have : escape (c :: s) = escSeq c ++ escape s := by
      simp [escape]
    rw [this, List.append_assoc, parseStrBody_step]
    exact consFst_some (ih rest f (by simp at hf; omega))


theorem digitChar_toNat {m : ℕ} (h : m < 10) : (digitChar m).toNat = 48 + m :=
  charToNat_ofNat (Or.inl (by omega))

theorem isDigit_digitChar {m : ℕ} (h : m < 10) : isDigit (digitChar m) = true := by
  simp only [isDigit, digitChar_toNat h, Bool.and_eq_true, decide_eq_true_eq]
  omega

theorem digVal_digitChar {m : ℕ} (h : m < 10) : digVal (digitChar m) = m := by
  simp [digVal, digitChar_toNat h]

theorem delim_notDigitHead {rest : List Char} (h : delimOk rest) : notDigitHead rest := by
  cases rest with
  | nil => trivial
  | cons c t =>
    rcases h with h | h | h <;> subst h
    · exact (by decide : isDigit ',' = false)
    · exact (by decide : isDigit '\x7d' = false)
    · exact (by decide : isDigit ']' = false)

theorem parseDigits_stop {rest : List Char} (acc : ℕ) (h : notDigitHead rest) :
    parseDigits rest acc = (acc, rest) := by
  cases rest with
  | nil => rfl
  | cons c t =>
    have hc : isDigit c = false := h
    simp [parseDigits, hc]

theorem parseDigits_all {A : List Char} (hA : ∀ c ∈ A, isDigit c = true) :
    ∀ (rest : List Char) (acc : ℕ), parseDigits (A ++ rest) acc = parseDigits rest (nodAux A acc) := by
  induction A with
  | nil => intro rest acc; rfl
  | cons c A ih =>
    intro rest acc
    have hc : isDigit c = true := hA c (by simp)
    have hstep : parseDigits ((c :: A) ++ rest) acc
        = parseDigits (A ++ rest) (acc * 10 + digVal c) := by
      simp [parseDigits, hc]
    rw [hstep, ih (fun d hd => hA d (by simp [hd]))]
    rfl

theorem dnF_digits : ∀ (fuel n : ℕ), ∀ c ∈ dumpNatF fuel n, isDigit c = true := by
  intro fuel
  induction fuel with
  | zero =>
    intro n c hc
    simp only [dumpNatF, List.mem_singleton] at hc
    subst hc
    exact isDigit_digitChar (by omega)
  | succ fuel ih =>
    intro n c hc
    rw [dumpNatF] at hc
    split at hc
    · next h =>
      simp only [List.mem_singleton] at hc
      subst hc
      exact isDigit_digitChar h
    · rcases List.mem_append.mp hc with h1 | h1
      · exact ih _ c h1
      · simp only [List.mem_singleton] at h1
        subst h1
        exact isDigit_digitChar (by omega)

theorem nodAux_append (A B : List Char) (acc : ℕ) :
    nodAux (A ++ B) acc = nodAux B (nodAux A acc) := by
  simp [nodAux, List.foldl_append]

theorem dnF_val : ∀ (fuel n acc : ℕ), n ≤ fuel →
    nodAux (dumpNatF fuel n) acc = acc * 10 ^ (dumpNatF fuel n).length + n := by
  intro fuel
  induction fuel with
  | zero =>
    intro n acc h
    obtain rfl : n = 0 := by omega
    simp [dumpNatF, nodAux, digVal_digitChar, List.foldl]
  | succ fuel ih =>
    intro n acc h
    rw [dumpNatF]
    split
    · next hlt =>
      simp [nodAux, List.foldl, digVal_digitChar hlt]
    · next hge =>
      push_neg at hge
      have hdiv : n / 10 ≤ fuel := by omega
      rw [nodAux_append]
      rw [ih (n / 10) acc hdiv]
      have hmod : n % 10 < 10 := by omega
      simp only [nodAux, List.foldl, digVal_digitChar hmod, List.length_append,
        List.length_singleton]
      set p := 10 ^ (dumpNatF fuel (n / 10)).length with hp
      have h10 : n / 10 * 10 + n % 10 = n := by omega
      calc (acc * p + n / 10) * 10 + n % 10
          = acc * (p * 10) + (n / 10 * 10 + n % 10) := by ring
        _ = acc * (p * 10) + n := by rw [h10]
        _ = acc * 10 ^ ((dumpNatF fuel (n / 10)).length + 1) + n := by
            rw [pow_succ, hp]

theorem dnF_shape : ∀ (fuel n : ℕ), n ≤ fuel →
    ∃ m t, dumpNatF fuel n = digitChar m :: t ∧ m < 10 ∧ (1 ≤ n → 1 ≤ m) ∧
      (∀ c ∈ t, isDigit c = true) := by
  intro fuel
  induction fuel with
  | zero =>
    intro n h
    obtain rfl : n = 0 := by omega
    exact ⟨0, [], rfl, by omega, by omega, by simp⟩
  | succ fuel ih =>
    intro n h
    rw [dumpNatF]
    split
    · next hlt => exact ⟨n, [], rfl, hlt, fun h1 => h1, by simp⟩
    · next hge =>
      push_neg at hge
      obtain ⟨m, t, heq, hm, hpos, ht⟩ := ih (n / 10) (by omega)
      refine ⟨m, t ++ [digitChar (n % 10)], by rw [heq]; simp, hm, fun _ => hpos (by omega), ?_⟩
      intro c hc
      rcases List.mem_append.mp hc with h1 | h1
      · exact ht c h1
      · simp only [List.mem_singleton] at h1
        subst h1
        exact isDigit_digitChar (by omega)

theorem parseNumBody_dumpNat (n : ℕ) (rest : List Char) (h : notDigitHead rest) :
    parseNumBody (dumpNat n ++ rest) = some (n, rest) := by
  by_cases h0 : n = 0
  · subst h0
    show parseNumBody (('0' :: []) ++ rest) = some (0, rest)
    simp [parseNumBody]
  · obtain ⟨m, t, heq, hm, hpos, ht⟩ := dnF_shape n n le_rfl
    have hm1 : 1 ≤ m := hpos (by omega)
    have hne0 : ¬(digitChar m = '0') := by
      intro he
      have := congrArg Char.toNat he
      rw [digitChar_toNat hm] at this
      have h48 : ('0' : Char).toNat = 48 := by decide
      omega
    rw [show dumpNat n = digitChar m :: t from heq]
    simp only [List.cons_append, parseNumBody, if_neg hne0, isDigit_digitChar hm, if_pos]
    rw [digVal_digitChar hm, parseDigits_all ht, parseDigits_stop _ h]
    have hval := dnF_val n n 0 le_rfl
    rw [heq] at hval
    simp only [nodAux, List.foldl, digVal_digitChar hm, Nat.zero_mul, Nat.zero_add] at hval
    rw [show nodAux t m = n from by simpa [nodAux] using hval]

/-! Head-shape and whitespace lemmas for the serializer. -/

theorem jsize_pos (v : Json) : 1 ≤ jsize v := by
  cases v <;> simp [jsize]

theorem isize_pos (xs : List Json) : 1 ≤ isize xs := by
  cases xs <;> simp [isize]

theorem msize_pos (kvs : List (String × Json)) : 1 ≤ msize kvs := by
  cases kvs with
  | nil => simp [msize]
  | cons kv t => obtain ⟨k, v⟩ := kv; simp [msize]

theorem one_le_length_escSeq (c : Char) : 1 ≤ (escSeq c).length := by
  rw [escSeq]
  split_ifs <;> simp

theorem length_le_length_escape (s : List Char) : s.length ≤ (escape s).length := by
  induction s with
  | nil => simp [escape]
  | cons c t ih =>
    have h1 := one_le_length_escSeq c
    simp only [escape, List.flatMap_cons, List.length_append, List.length_cons]
    simp only [escape] at ih
    omega

theorem digitChar_ne {m : ℕ} (hm : m < 10) (c : Char)
    (hc : c.toNat < 48 ∨ 57 < c.toNat) : ¬ digitChar m = c := by
  intro he
  rw [← he, digitChar_toNat hm] at hc
  omega

theorem jsonWs_digitChar {m : ℕ} (hm : m < 10) : jsonWs (digitChar m) = false := by
  have h1 := digitChar_ne hm ' ' (by decide)
  have h2 := digitChar_ne hm '\t' (by decide)
  have h3 := digitChar_ne hm '\n' (by decide)
  have h4 := digitChar_ne hm '\r' (by decide)
  simp [jsonWs, h1, h2, h3, h4]

theorem skipJWs_cons {c : Char} (t : List Char) (h : jsonWs c = false) :
    skipJWs (c :: t) = c :: t := by
  simp [skipJWs, List.dropWhile_cons, h]

theorem dumpV_head (v : Json) :
    ∃ c t, dumpV v = c :: t ∧ jsonWs c = false ∧ ¬ c = '\x7d' ∧ ¬ c = ']' := by
  cases v with
  | null => exact ⟨'n', _, rfl, by decide, by decide, by decide⟩
  | bool b =>
    cases b with
    | false => exact ⟨'f', _, rfl, by decide, by decide, by decide⟩
    | true => exact ⟨'t', _, rfl, by decide, by decide, by decide⟩
  | num n =>
    by_cases hn : n < 0
    · exact ⟨'-', dumpNat n.natAbs, by simp [dumpV, dumpInt, if_pos hn],
        by decide, by decide, by decide⟩
    · obtain ⟨m, t, heq, hm, _, _⟩ := dnF_shape n.toNat n.toNat le_rfl
      exact ⟨digitChar m, t, by simp [dumpV, dumpInt, if_neg hn, dumpNat, heq],
        jsonWs_digitChar hm, digitChar_ne hm '\x7d' (by decide),
        digitChar_ne hm ']' (by decide)⟩
  | str s => exact ⟨'"', _, rfl, by decide, by decide, by decide⟩
  | arr xs => cases xs with
    | nil => exact ⟨'[', _, rfl, by decide, by decide, by decide⟩
    | cons x t => exact ⟨'[', _, rfl, by decide, by decide, by decide⟩
  | obj kvs => cases kvs with
    | nil => exact ⟨'\x7b', _, rfl, by decide, by decide, by decide⟩
    | cons kv t => obtain ⟨k, v⟩ := kv; exact ⟨'\x7b', _, rfl, by decide, by decide, by decide⟩

theorem skipJWs_dumpV (v : Json) (r : List Char) :
    skipJWs (dumpV v ++ r) = dumpV v ++ r := by
  obtain ⟨c, t, heq, hws, _, _⟩ := dumpV_head v
  rw [heq, List.cons_append, skipJWs_cons _ hws]

theorem headIs_dumpV_rbrace (v : Json) (r : List Char) :
    headIs (dumpV v ++ r) '\x7d' = false := by
  obtain ⟨c, t, heq, _, hb, _⟩ := dumpV_head v
  rw [heq, List.cons_append]
  simp [headIs, hb]

theorem headIs_dumpV_rbrack (v : Json) (r : List Char) :
    headIs (dumpV v ++ r) ']' = false := by
  obtain ⟨c, t, heq, _, _, hb⟩ := dumpV_head v
  rw [heq, List.cons_append]
  simp [headIs, hb]

theorem delimOk_items (xs : List Json) (rest : List Char) :
    delimOk (dumpItems xs ++ ']' :: rest) := by
  cases xs with
  | nil => exact Or.inr (Or.inr rfl)
  | cons y ys => exact Or.inl rfl

theorem delimOk_members (kvs : List (String × Json)) (rest : List Char) :
    delimOk (dumpMembers kvs ++ '\x7d' :: rest) := by
  cases kvs with
  | nil => exact Or.inr (Or.inl rfl)
  | cons kv t => obtain ⟨k, v⟩ := kv; exact Or.inl rfl

theorem skipJWs_items (xs : List Json) (rest : List Char) :
    skipJWs (dumpItems xs ++ ']' :: rest) = dumpItems xs ++ ']' :: rest := by
  cases xs with
  | nil => exact skipJWs_cons _ (by decide)
  | cons y ys => exact skipJWs_cons _ (by decide)

theorem skipJWs_members (kvs : List (String × Json)) (rest : List Char) :
    skipJWs (dumpMembers kvs ++ '\x7d' :: rest) = dumpMembers kvs ++ '\x7d' :: rest := by
  cases kvs with
  | nil => exact skipJWs_cons _ (by decide)
  | cons kv t => obtain ⟨k, v⟩ := kv; exact skipJWs_cons _ (by decide)

/-! Dispatch lemmas for one step of the value parser. -/

theorem pvStep_obj (pm : List Char → Option (List (String × Json) × List Char))
    (pi : List Char → Option (List Json × List Char)) (T : List Char)
    (h : headIs (skipJWs T) '\x7d' = false) :
    pvStep pm pi '\x7b' T =
      match pm (skipJWs T) with
      | some (kvs, r2) => some (.obj kvs, r2)
      | none => none := by
  simp only [pvStep, eq_self_iff_true, if_true, h, Bool.false_eq_true, if_false]

theorem pvStep_arr (pm : List Char → Option (List (String × Json) × List Char))
    (pi : List Char → Option (List Json × List Char)) (T : List Char)
    (h : headIs (skipJWs T) ']' = false) :
    pvStep pm pi '[' T =
      match pi (skipJWs T) with
      | some (xs, r2) => some (.arr xs, r2)
      | none => none := by
  simp only [pvStep, if_neg (by decide : ¬('[' : Char) = '\x7b'), eq_self_iff_true,
    if_true, h, Bool.false_eq_true, if_false]

theorem pvStep_str (pm : List Char → Option (List (String × Json) × List Char))
    (pi : List Char → Option (List Json × List Char)) (T : List Char) :
    pvStep pm pi '"' T =
      match parseStrBody T.length T with
      | some (s, r2) => some (.str (String.mk s), r2)
      | none => none := by
  simp only [pvStep, if_neg (by decide : ¬('"' : Char) = '\x7b'),
    if_neg (by decide : ¬('"' : Char) = '['), eq_self_iff_true, if_true]

theorem pvStep_dash (pm : List Char → Option (List (String × Json) × List Char))
    (pi : List Char → Option (List Json × List Char)) (T : List Char) :
    pvStep pm pi '-' T =
      match parseNumBody T with
      | some (n, r2) => some (.num (-(n : ℤ)), r2)
      | none => none := by
  simp only [pvStep, if_neg (by decide : ¬('-' : Char) = '\x7b'),
    if_neg (by decide : ¬('-' : Char) = '['), if_neg (by decide : ¬('-' : Char) = '"'),
    isPre,
    (by decide : (decide (('t' : Char) = '-')) = false),
    (by decide : (decide (('f' : Char) = '-')) = false),
    (by decide : (decide (('n' : Char) = '-')) = false),
    Bool.false_and, Bool.false_eq_true, if_false, eq_self_iff_true, if_true]

theorem pvStep_digit {m : ℕ} (hm : m < 10)
    (pm : List Char → Option (List (String × Json) × List Char))
    (pi : List Char → Option (List Json × List Char)) (T : List Char) :
    pvStep pm pi (digitChar m) T =
      match parseNumBody (digitChar m :: T) with
      | some (n, r2) => some (.num (n : ℤ), r2)
      | none => none := by
  have h1 := digitChar_ne hm '\x7b' (by decide)
  have h2 := digitChar_ne hm '[' (by decide)
  have h3 := digitChar_ne hm '"' (by decide)
  have h4 := digitChar_ne hm 't' (by decide)
  have h5 := digitChar_ne hm 'f' (by decide)
  have h6 := digitChar_ne hm 'n' (by decide)
  have h7 := digitChar_ne hm '-' (by decide)
  simp only [pvStep, if_neg h1, if_neg h2, if_neg h3, if_neg h7, isPre,
    (by simp [Ne.symm h4] : (decide ('t' = digitChar m)) = false),
    (by simp [Ne.symm h5] : (decide ('f' = digitChar m)) = false),
    (by simp [Ne.symm h6] : (decide ('n' = digitChar m)) = false),
    Bool.false_and, Bool.false_eq_true, if_false]

theorem pv_succ (f : ℕ) (c : Char) (l : List Char) :
    parseVal (f + 1) (c :: l) = pvStep (parseMembers f) (parseItems f) c l := rfl

theorem pm_succ (f : ℕ) (c : Char) (l : List Char) :
    parseMembers (f + 1) (c :: l) = pmStep (parseVal f) (parseMembers f) c l := rfl

theorem pi_succ (f : ℕ) (l : List Char) :
    parseItems (f + 1) l = piStep (parseVal f) (parseItems f) l := rfl

theorem skipJWs_space (X : List Char) : skipJWs (' ' :: X) = skipJWs X := rfl

theorem skipJWs_dumpStr (k : String) (r : List Char) :
    skipJWs (dumpStr k ++ r) = dumpStr k ++ r := by
  have h : dumpStr k ++ r = '"' :: (escape k.data ++ ('"' :: r)) := by
    simp [dumpStr]
  rw [h, skipJWs_cons _ (by decide)]

theorem headIs_dumpStr (k : String) (r : List Char) :
    headIs (dumpStr k ++ r) '\x7d' = false := by
  have h : dumpStr k ++ r = '"' :: (escape k.data ++ ('"' :: r)) := by
    simp [dumpStr]
  rw [h]
  simp [headIs]

theorem rt_main : ∀ fuel : ℕ,
    (∀ v rest, jsize v ≤ fuel → delimOk rest →
      parseVal fuel (dumpV v ++ rest) = some (v, rest)) ∧
    (∀ x xs rest, isize (x :: xs) ≤ fuel → delimOk rest →
      parseItems fuel (dumpV x ++ (dumpItems xs ++ ']' :: rest)) = some (x :: xs, rest)) ∧
    (∀ k v kvs rest, msize ((k, v) :: kvs) ≤ fuel → delimOk rest →
      parseMembers fuel
        (dumpStr k ++ ':' :: ' ' :: (dumpV v ++ (dumpMembers kvs ++ '\x7d' :: rest)))
        = some ((k, v) :: kvs, rest)) := by
  intro fuel
  induction fuel with
  | zero =>
    refine ⟨fun v rest hsz _ => absurd hsz ?_, fun x xs rest hsz _ => absurd hsz ?_,
      fun k v kvs rest hsz _ => absurd hsz ?_⟩
    · have := jsize_pos v; omega
    · have := isize_pos (x :: xs); omega
    · have := msize_pos ((k, v) :: kvs); omega
  | succ f ih =>
    obtain ⟨ihv, ihi, ihm⟩ := ih
    refine ⟨?_, ?_, ?_⟩
    · intro v rest hsz hrest
      cases v with
      | null => rfl
      | bool b => cases b <;> rfl
      | num n =>
        by_cases hn : n < 0
        · have hd : dumpV (.num n) = '-' :: dumpNat n.natAbs := by
            simp [dumpV, dumpInt, if_pos hn]
          rw [hd, List.cons_append, pv_succ, pvStep_dash,
            parseNumBody_dumpNat n.natAbs rest (delim_notDigitHead hrest)]
          show some (Json.num (-(n.natAbs : ℤ)), rest) = some (Json.num n, rest)
          have he : -(n.natAbs : ℤ) = n := by omega
          rw [he]
        · have hd : dumpV (.num n) = dumpNat n.toNat := by
            simp [dumpV, dumpInt, if_neg hn]
          obtain ⟨m, t, heq, hm, _, _⟩ := dnF_shape n.toNat n.toNat le_rfl
          have heq' : dumpNat n.toNat = digitChar m :: t := heq
          have hpn : parseNumBody (dumpNat n.toNat ++ rest) = some (n.toNat, rest) :=
            parseNumBody_dumpNat _ _ (delim_notDigitHead hrest)
          rw [heq', List.cons_append] at hpn
          rw [hd, heq', List.cons_append, pv_succ, pvStep_digit hm, hpn]
          show some (Json.num ((n.toNat : ℕ) : ℤ), rest) = some (Json.num n, rest)
          have he : ((n.toNat : ℕ) : ℤ) = n := Int.toNat_of_nonneg (by omega)
          rw [he]
      | str s =>
        have hd : dumpV (.str s) ++ rest = '"' :: (escape s.data ++ ('"' :: rest)) := by
          simp [dumpV, dumpStr]
        rw [hd, pv_succ, pvStep_str]
        have hlen : s.data.length < (escape s.data ++ ('"' :: rest)).length := by
          have := length_le_length_escape s.data
          simp only [List.length_append, List.length_cons]
          omega
        rw [parseStrBody_escape s.data rest _ hlen]
      | arr xs =>
        cases xs with
        | nil => rfl
        | cons x txs =>
          have hd : dumpV (.arr (x :: txs)) ++ rest
              = '[' :: (dumpV x ++ (dumpItems txs ++ ']' :: rest)) := by
            simp [dumpV, List.append_assoc]
          have hhd : headIs (skipJWs (dumpV x ++ (dumpItems txs ++ ']' :: rest))) ']' = false := by
            rw [skipJWs_dumpV]; exact headIs_dumpV_rbrack x _
          have hsz' : isize (x :: txs) ≤ f := by
            simp only [jsize] at hsz; omega
          rw [hd, pv_succ, pvStep_arr _ _ _ hhd, skipJWs_dumpV,
            ihi x txs rest hsz' hrest]
      | obj kvs =>
        cases kvs with
        | nil => rfl
        | cons kv tkv =>
          obtain ⟨k, v⟩ := kv
          have hd : dumpV (.obj ((k, v) :: tkv)) ++ rest
              = '\x7b' :: (dumpStr k ++ ':' :: ' ' :: (dumpV v ++ (dumpMembers tkv ++ '\x7d' :: rest))) := by
            simp [dumpV, List.append_assoc]
          have hhd : headIs (skipJWs (dumpStr k ++ ':' :: ' ' :: (dumpV v ++ (dumpMembers tkv ++ '\x7d' :: rest)))) '\x7d' = false := by
            rw [skipJWs_dumpStr]; exact headIs_dumpStr k _
          have hsz' : msize ((k, v) :: tkv) ≤ f := by
            simp only [jsize] at hsz; omega
          rw [hd, pv_succ, pvStep_obj _ _ _ hhd, skipJWs_dumpStr,
            ihm k v tkv rest hsz' hrest]
    · intro x xs rest hsz hrest
      have hx : jsize x ≤ f := by
        have := isize_pos xs; simp only [isize] at hsz; omega
      have hpv := ihv x (dumpItems xs ++ ']' :: rest) hx (delimOk_items xs rest)
      rw [pi_succ]
      simp only [piStep, hpv, skipJWs_items]
      cases xs with
      | nil => rfl
      | cons y ys =>
        have hre : dumpItems (y :: ys) ++ ']' :: rest
            = ',' :: ' ' :: (dumpV y ++ (dumpItems ys ++ ']' :: rest)) := by
          simp [dumpItems, List.append_assoc]
        have hys : isize (y :: ys) ≤ f := by
          have h1 : isize (x :: y :: ys) = 1 + max (jsize x) (isize (y :: ys)) := rfl
          have := jsize_pos x; omega
        rw [hre]
        simp only [headIs, eq_self_iff_true, decide_True, if_true, List.tail_cons,
          skipJWs_space, skipJWs_dumpV, ihi y ys rest hys hrest]
    · intro k v kvs rest hsz hrest
      have hd : dumpStr k ++ ':' :: ' ' :: (dumpV v ++ (dumpMembers kvs ++ '\x7d' :: rest))
          = '"' :: (escape k.data ++ ('"' :: (':' :: ' ' :: (dumpV v ++ (dumpMembers kvs ++ '\x7d' :: rest))))) := by
        simp [dumpStr]
      have hv : jsize v ≤ f := by
        have := msize_pos kvs; simp only [msize] at hsz; omega
      have hpv := ihv v (dumpMembers kvs ++ '\x7d' :: rest) hv (delimOk_members kvs rest)
      have hlen : k.data.length
          < (escape k.data ++ ('"' :: (':' :: ' ' :: (dumpV v ++ (dumpMembers kvs ++ '\x7d' :: rest))))).length := by
        have := length_le_length_escape k.data
        simp only [List.length_append, List.length_cons]
        omega
      rw [hd, pm_succ]
      simp only [pmStep, eq_self_iff_true, decide_True, if_true,
        parseStrBody_escape k.data _ _ hlen]
      simp only [skipJWs_cons _ (by decide : jsonWs ':' = false), headIs,
        eq_self_iff_true, decide_True, if_true, List.tail_cons, skipJWs_space,
        skipJWs_dumpV, hpv, skipJWs_members]
      cases kvs with
      | nil => rfl
      | cons kv2 tkv =>
        obtain ⟨k2, v2⟩ := kv2
        have hre : dumpMembers ((k2, v2) :: tkv) ++ '\x7d' :: rest
            = ',' :: ' ' :: (dumpStr k2 ++ ':' :: ' ' :: (dumpV v2 ++ (dumpMembers tkv ++ '\x7d' :: rest))) := by
          simp [dumpMembers, List.append_assoc]
        have htkv : msize ((k2, v2) :: tkv) ≤ f := by
          have h1 : msize ((k, v) :: (k2, v2) :: tkv)
              = 1 + max (jsize v) (msize ((k2, v2) :: tkv)) := rfl
          have := jsize_pos v; omega
        rw [hre]
        simp only [headIs, eq_self_iff_true, decide_True, if_true, List.tail_cons,
          skipJWs_space, skipJWs_dumpStr, ihm k2 v2 tkv rest htkv hrest]

theorem size_le_dump : ∀ N : ℕ,
    (∀ v : Json, jsize v ≤ N → jsize v ≤ (dumpV v).length + 1) ∧
    (∀ xs : List Json, isize xs ≤ N → isize xs ≤ (dumpItems xs).length + 1) ∧
    (∀ kvs : List (String × Json), msize kvs ≤ N →
      msize kvs ≤ (dumpMembers kvs).length + 1) := by
  intro N
  induction N with
  | zero =>
    refine ⟨fun v h => absurd h ?_, fun xs h => absurd h ?_, fun kvs h => absurd h ?_⟩
    · have := jsize_pos v; omega
    · have := isize_pos xs; omega
    · have := msize_pos kvs; omega
  | succ N ih =>
    obtain ⟨ihv, ihi, ihm⟩ := ih
    refine ⟨?_, ?_, ?_⟩
    · intro v hv
      cases v with
      | null => simp [jsize, dumpV]
      | bool b => cases b <;> simp [jsize, dumpV]
      | num n => simp [jsize]
      | str s => simp [jsize]
      | arr xs =>
        cases xs with
        | nil => simp [jsize, isize, dumpV]
        | cons x txs =>
          have e1 : jsize (.arr (x :: txs)) = 1 + (1 + max (jsize x) (isize txs)) := rfl
          have e2 : (dumpV (.arr (x :: txs))).length
              = 1 + ((dumpV x).length + ((dumpItems txs).length + 1)) := by
            simp [dumpV]; omega
          have h1 : jsize x ≤ N := by
            have := isize_pos txs; omega
          have h2 : isize txs ≤ N := by
            have := jsize_pos x; omega
          have b1 := ihv x h1
          have b2 := ihi txs h2
          omega
      | obj kvs =>
        cases kvs with
        | nil => simp [jsize, msize, dumpV]
        | cons kv tkv =>
          obtain ⟨k, v⟩ := kv
          have e1 : jsize (.obj ((k, v) :: tkv)) = 1 + (1 + max (jsize v) (msize tkv)) := rfl
          have e2 : (dumpV (.obj ((k, v) :: tkv))).length
              = 1 + ((dumpStr k).length + (1 + (1 + ((dumpV v).length
                + ((dumpMembers tkv).length + 1))))) := by
            simp [dumpV]; omega
          have h1 : jsize v ≤ N := by
            have := msize_pos tkv; omega
          have h2 : msize tkv ≤ N := by
            have := jsize_pos v; omega
          have b1 := ihv v h1
          have b2 := ihm tkv h2
          omega
    · intro xs hxs
      cases xs with
      | nil => simp [isize, dumpItems]
      | cons y ys =>
        have e1 : isize (y :: ys) = 1 + max (jsize y) (isize ys) := rfl
        have e2 : (dumpItems (y :: ys)).length
            = 1 + (1 + ((dumpV y).length + (dumpItems ys).length)) := by
          simp [dumpItems]; omega
        have h1 : jsize y ≤ N := by
          have := isize_pos ys; omega
        have h2 : isize ys ≤ N := by
          have := jsize_pos y; omega
        have b1 := ihv y h1
        have b2 := ihi ys h2
        omega
    · intro kvs hkvs
      cases kvs with
      | nil => simp [msize, dumpMembers]
      | cons kv tkv =>
        obtain ⟨k, v⟩ := kv
        have e1 : msize ((k, v) :: tkv) = 1 + max (jsize v) (msize tkv) := rfl
        have e2 : (dumpMembers ((k, v) :: tkv)).length
            = 1 + (1 + ((dumpStr k).length + (1 + (1 + ((dumpV v).length
              + (dumpMembers tkv).length))))) := by
          simp [dumpMembers]; omega
        have h1 : jsize v ≤ N := by
          have := msize_pos tkv; omega
        have h2 : msize tkv ≤ N := by
          have := jsize_pos v; omega
        have b1 := ihv v h1
        have b2 := ihm tkv h2
        omega

theorem jsize_le_dump (v : Json) : jsize v ≤ (dumpV v).length + 1 :=
  (size_le_dump (jsize v)).1 v le_rfl

theorem parseVal_dump (v : Json) (rest : List Char) (fuel : ℕ)
    (hf : jsize v ≤ fuel) (hr : delimOk rest) :
    parseVal fuel (dumpV v ++ rest) = some (v, rest) :=
  (rt_main fuel).1 v rest hf hr

theorem loads_dumpV (v : Json) : loads (dumpV v) = some v := by
  obtain ⟨c, t, heq, hws, _, _⟩ := dumpV_head v
  have hskip : skipJWs (dumpV v) = dumpV v := by
    rw [heq]; exact skipJWs_cons _ hws
  have hpv : parseVal ((dumpV v).length + 1) (dumpV v ++ []) = some (v, []) :=
    parseVal_dump v [] _ (jsize_le_dump v) trivial
  rw [List.append_nil] at hpv
  rw [loads, hskip, hpv]
  rfl

theorem tryLoads_dumpObj (kvs : List (String × Json)) :
    tryLoads (dumpV (.obj kvs)) = some (.obj kvs) := by
  rw [tryLoads, loads_dumpV]

/-! Lemmas about `extract_json_object` on serialized objects. -/

theorem dumpObj_shape (kvs : List (String × Json)) :
    ∃ m, dumpV (.obj kvs) = '\x7b' :: m ++ ['\x7d'] := by
  cases kvs with
  | nil => exact ⟨[], rfl⟩
  | cons kv tkv =>
    obtain ⟨k, v⟩ := kv
    refine ⟨dumpStr k ++ ':' :: ' ' :: (dumpV v ++ dumpMembers tkv), ?_⟩
    simp [dumpV, List.append_assoc]

theorem stripL_wrap {c d : Char} (m : List Char) (hc : isPyWs c = false)
    (hd : isPyWs d = false) : stripL (c :: m ++ [d]) = c :: m ++ [d] := by
  rw [stripL]
  rw [List.cons_append, List.dropWhile_cons]
  rw [hc]
  simp only [Bool.false_eq_true, if_false]
  rw [show (c :: (m ++ [d])).reverse = d :: (m.reverse ++ [c]) from by
    simp [List.reverse_append]]
  rw [List.dropWhile_cons, hd]
  simp

theorem extract_plain (kvs : List (String × Json)) :
    extract_json_object (String.mk (dumpV (.obj kvs))) = .ok (.obj kvs) := by
  obtain ⟨m, hm⟩ := dumpObj_shape kvs
  have hstrip : stripL (dumpV (.obj kvs)) = dumpV (.obj kvs) := by
    rw [hm]; exact stripL_wrap m (by decide) (by decide)
  have hne : ¬ dumpV (.obj kvs) = ([] : List Char) := by
    rw [hm]; simp
  have hpre : isPre [tickC, tickC, tickC] (dumpV (.obj kvs)) = false := by
    rw [hm]
    rfl
  rw [extract_json_object]
  simp only [show (String.mk (dumpV (.obj kvs))).data = dumpV (.obj kvs) from rfl,
    hstrip, if_neg hne, hpre, Bool.false_eq_true, if_false, tryLoads_dumpObj]

theorem fenceWrap_eq (l : List Char) :
    fenceWrap l = tickC :: ((tickC :: tickC :: 'j' :: 's' :: 'o' :: 'n' :: '\n' :: l
      ++ ['\n', tickC, tickC]) ++ [tickC]) := by
  show ("\x60\x60\x60json\n").data ++ l ++ ("\n\x60\x60\x60").data = _
  simp [tickC, List.append_assoc]

theorem tryLoads_tick (l : List Char) : tryLoads (tickC :: l) = none := rfl

theorem removeTrailingCommas_tick (l : List Char) :
    removeTrailingCommas (tickC :: l) = tickC :: rtcF l.length l := rfl

theorem subFenceOpen_fence (l : List Char) :
    subFenceOpen (fenceWrap l) = fenceWrap l := by
  rw [fenceWrap_eq]
  rfl

theorem subFenceClose_fence (l : List Char) :
    subFenceClose (fenceWrap l) = fenceWrap l := by
  have hrev : (fenceWrap l).reverse
      = tickC :: tickC :: tickC :: ('\n' :: (l.reverse
        ++ ['\n', 'n', 'o', 's', 'j', tickC, tickC, tickC])) := by
    rw [fenceWrap_eq]
    simp [List.reverse_append, tickC]
  rw [subFenceClose]
  rw [hrev]
  simp only [eq_self_iff_true, and_self, if_true, List.dropWhile_cons,
    (by decide : (decide (('\n' : Char) = 's')) = false), Bool.false_eq_true, if_false]
  split
  · next rev3 h => exact absurd (List.cons.inj h).1 (by decide)
  · rfl

theorem dropWhile_all {p : Char → Bool} :
    ∀ A : List Char, (∀ c ∈ A, p c = true) →
      ∀ X : List Char, (A ++ X).dropWhile p = X.dropWhile p := by
  intro A
  induction A with
  | nil => intro _ X; rfl
  | cons a A ih =>
    intro h X
    rw [List.cons_append, List.dropWhile_cons, h a (by simp), if_pos rfl]
    exact ih (fun c hc => h c (by simp [hc])) X

theorem extract_fence (kvs : List (String × Json)) :
    extract_json_object (String.mk (fenceWrap (dumpV (.obj kvs)))) = .ok (.obj kvs) := by
  obtain ⟨m, hm⟩ := dumpObj_shape kvs
  have hshape : fenceWrap (dumpV (.obj kvs))
      = tickC :: ((tickC :: tickC :: 'j' :: 's' :: 'o' :: 'n' :: '\n' :: dumpV (.obj kvs)
        ++ ['\n', tickC, tickC]) ++ [tickC]) := fenceWrap_eq _
  have hstrip : stripL (fenceWrap (dumpV (.obj kvs))) = fenceWrap (dumpV (.obj kvs)) := by
    rw [hshape]; exact stripL_wrap _ (by decide) (by decide)
  have hne : ¬ fenceWrap (dumpV (.obj kvs)) = ([] : List Char) := by
    rw [hshape]; simp
  have hpre : isPre [tickC, tickC, tickC] (fenceWrap (dumpV (.obj kvs))) = true := by
    rw [hshape]; rfl
  have hsub : stripL (subFenceClose (subFenceOpen (fenceWrap (dumpV (.obj kvs)))))
      = fenceWrap (dumpV (.obj kvs)) := by
    rw [subFenceOpen_fence, subFenceClose_fence, hstrip]
  have htick : ∃ r, fenceWrap (dumpV (.obj kvs)) = tickC :: r := ⟨_, hshape⟩
  obtain ⟨r, hr⟩ := htick
  have htl1 : tryLoads (fenceWrap (dumpV (.obj kvs))) = none := by
    rw [hr]; exact tryLoads_tick r
  have htl2 : tryLoads (removeTrailingCommas (fenceWrap (dumpV (.obj kvs)))) = none := by
    rw [hr, removeTrailingCommas_tick]; exact tryLoads_tick _
  have hs1 : (fenceWrap (dumpV (.obj kvs))).dropWhile (fun c => ¬(c = '\x7b'))
      = dumpV (.obj kvs) ++ ['\n', tickC, tickC, tickC] := by
    have hfw : fenceWrap (dumpV (.obj kvs))
        = [tickC, tickC, tickC, 'j', 's', 'o', 'n', '\n']
          ++ (dumpV (.obj kvs) ++ ['\n', tickC, tickC, tickC]) := by
      rw [hshape]; simp [List.append_assoc]
    rw [hfw, dropWhile_all _ (by decide) _, hm]
    simp only [List.cons_append, List.dropWhile_cons, eq_self_iff_true, not_true,
      decide_False, Bool.false_eq_true, if_false]
  have hsliced :
      (((dumpV (.obj kvs) ++ ['\n', tickC, tickC, tickC]).reverse.dropWhile
        (fun c => ¬(c = '\x7d'))).reverse)
      = dumpV (.obj kvs) := by
    rw [hm]
    rw [show ((('\x7b' :: m ++ ['\x7d']) ++ ['\n', tickC, tickC, tickC]) : List Char).reverse
        = [tickC, tickC, tickC, '\n'] ++ ('\x7d' :: (m.reverse ++ ['\x7b'])) from by
      simp [List.reverse_append]]
    rw [dropWhile_all _ (by decide) _, List.dropWhile_cons]
    simp [List.reverse_append]
  have hnesl : ¬ dumpV (.obj kvs) = ([] : List Char) := by rw [hm]; simp
  rw [extract_json_object]
  simp only [show (String.mk (fenceWrap (dumpV (.obj kvs)))).data
      = fenceWrap (dumpV (.obj kvs)) from rfl,
    hstrip, if_neg hne, hpre, if_true, hsub, htl1, htl2, hs1, hsliced, if_neg hnesl,
    tryLoads_dumpObj]

/-! Fuel-irrelevance and injection behaviour of the trailing-comma repair. -/

theorem rtcF_nil (f : ℕ) : rtcF f [] = [] := by
  cases f <;> rfl

theorem rtcF_succ (f : ℕ) (c : Char) (rest : List Char) :
    rtcF (f + 1) (c :: rest) =
      if c = ',' then
        match rest.dropWhile isPyWs with
        | d :: rest3 =>
          if d = '\x7d' ∨ d = ']' then d :: rtcF f rest3
          else ',' :: rtcF f rest
        | [] => ',' :: rtcF f rest
      else c :: rtcF f rest := rfl

theorem rtcF_any : ∀ n f g : ℕ, ∀ l : List Char,
    l.length ≤ n → l.length ≤ f → l.length ≤ g → rtcF f l = rtcF g l := by
  intro n
  induction n with
  | zero =>
    intro f g l h0 _ _
    obtain rfl : l = [] := List.eq_nil_of_length_eq_zero (by omega)
    rw [rtcF_nil, rtcF_nil]
  | succ n ih =>
    intro f g l h0 hf hg
    cases l with
    | nil => rw [rtcF_nil, rtcF_nil]
    | cons c rest =>
      obtain ⟨f2, rfl⟩ : ∃ f2, f = f2 + 1 := ⟨f - 1, by simp at hf; omega⟩
      obtain ⟨g2, rfl⟩ : ∃ g2, g = g2 + 1 := ⟨g - 1, by simp at hg; omega⟩
      simp only [List.length_cons] at h0 hf hg
      rw [rtcF_succ, rtcF_succ]
      by_cases hc : c = ','
      · rw [if_pos hc, if_pos hc]
        cases hd : rest.dropWhile isPyWs with
        | nil =>
          simp only [hd]
          rw [ih f2 g2 rest (by omega) (by omega) (by omega)]
        | cons d rest3 =>
          simp only [hd]
          have hr3 : rest3.length + 1 ≤ rest.length := by
            have hle : (List.dropWhile isPyWs rest).length ≤ rest.length :=
              (List.dropWhile_sublist isPyWs).length_le
            rw [hd] at hle
            simp at hle
            omega
          by_cases hdc : d = '\x7d' ∨ d = ']'
          · rw [if_pos hdc, if_pos hdc, ih f2 g2 rest3 (by omega) (by omega) (by omega)]
          · rw [if_neg hdc, if_neg hdc, ih f2 g2 rest (by omega) (by omega) (by omega)]
      · rw [if_neg hc, if_neg hc, ih f2 g2 rest (by omega) (by omega) (by omega)]

theorem isPyWs_closer {c : Char} (hc : c = '\x7d' ∨ c = ']') : isPyWs c = false := by
  rcases hc with rfl | rfl <;> decide

theorem closer_ne_comma {c : Char} (hc : c = '\x7d' ∨ c = ']') : ¬ c = ',' := by
  rcases hc with rfl | rfl <;> decide

theorem rtc_inject : ∀ a : List Char, ∀ (c : Char) (b : List Char) (f g : ℕ),
    (c = '\x7d' ∨ c = ']') →
    (a ++ c :: b).length ≤ f → (a ++ ',' :: c :: b).length ≤ g →
    rtcF f (a ++ c :: b) = a ++ c :: b →
    rtcF g (a ++ ',' :: c :: b) = a ++ c :: b := by
  intro a
  induction a with
  | nil =>
    intro c b f g hc hf hg hfix
    simp only [List.nil_append, List.length_cons] at hf hg hfix ⊢
    obtain ⟨f2, rfl⟩ : ∃ f2, f = f2 + 1 := ⟨f - 1, by omega⟩
    obtain ⟨g2, rfl⟩ : ∃ g2, g = g2 + 1 := ⟨g - 1, by omega⟩
    rw [rtcF_succ, if_neg (closer_ne_comma hc)] at hfix
    have hb : rtcF f2 b = b := (List.cons.inj hfix).2
    rw [rtcF_succ, if_pos rfl]
    rw [List.dropWhile_cons, isPyWs_closer hc]
    simp only [Bool.false_eq_true, if_false, if_pos hc]
    rw [rtcF_any b.length g2 f2 b le_rfl (by omega) (by omega), hb]
  | cons x a2 ih =>
    intro c b f g hc hf hg hfix
    simp only [List.cons_append, List.length_cons] at hf hg hfix ⊢
    obtain ⟨f2, rfl⟩ : ∃ f2, f = f2 + 1 := ⟨f - 1, by omega⟩
    obtain ⟨g2, rfl⟩ : ∃ g2, g = g2 + 1 := ⟨g - 1, by omega⟩
    rw [rtcF_succ] at hfix
    rw [rtcF_succ]
    by_cases hx : x = ','
    · subst hx
      rw [if_pos rfl] at hfix ⊢
      by_cases hae : a2.dropWhile isPyWs = []
      · have hall : ∀ y ∈ a2, isPyWs y = true := fun y hy =>
          List.dropWhile_eq_nil_iff.mp hae y hy
        have hdrop : (a2 ++ c :: b).dropWhile isPyWs = c :: b := by
          rw [dropWhile_all a2 hall, List.dropWhile_cons, isPyWs_closer hc]
          simp
        rw [hdrop] at hfix
        simp only [if_pos hc] at hfix
        exact absurd (List.cons.inj hfix).1 (closer_ne_comma hc)
      · obtain ⟨e, t, het⟩ : ∃ e t, a2.dropWhile isPyWs = e :: t := by
          cases h : a2.dropWhile isPyWs with
          | nil => exact absurd h hae
          | cons e t => exact ⟨e, t, rfl⟩
        have hdrop1 : (a2 ++ c :: b).dropWhile isPyWs = e :: (t ++ c :: b) := by
          rw [List.dropWhile_append, het]
          simp
        have hdrop2 : (a2 ++ ',' :: c :: b).dropWhile isPyWs = e :: (t ++ ',' :: c :: b) := by
          rw [List.dropWhile_append, het]
          simp
        rw [hdrop1] at hfix
        rw [hdrop2]
        by_cases hec : e = '\x7d' ∨ e = ']'
        · simp only [if_pos hec] at hfix
          exact absurd (List.cons.inj hfix).1 (closer_ne_comma hec)
        · simp only [if_neg hec] at hfix ⊢
          have htail : rtcF f2 (a2 ++ c :: b) = a2 ++ c :: b := (List.cons.inj hfix).2
          rw [ih c b f2 g2 hc (by omega) (by omega) htail]
    · rw [if_neg hx] at hfix ⊢
      have htail : rtcF f2 (a2 ++ c :: b) = a2 ++ c :: b := (List.cons.inj hfix).2
      rw [ih c b f2 g2 hc (by omega) (by omega) htail]

theorem tryLoads_none {l : List Char} (h : loads l = none) : tryLoads l = none := by
  rw [tryLoads, h]

theorem extract_inject (kvs : List (String × Json)) (a : List Char) (c : Char) (b : List Char)
    (hdec : dumpV (.obj kvs) = a ++ c :: b)
    (hc : c = '\x7d' ∨ c = ']')
    (hload : loads (a ++ ',' :: c :: b) = none)
    (hfix : removeTrailingCommas (dumpV (.obj kvs)) = dumpV (.obj kvs)) :
    extract_json_object (String.mk (a ++ ',' :: c :: b)) = .ok (.obj kvs) := by
  obtain ⟨m, hm⟩ := dumpObj_shape kvs
  obtain ⟨a2, rfl⟩ : ∃ a2, a = '\x7b' :: a2 := by
    cases a with
    | nil =>
      exfalso
      have h1 : c :: b = '\x7b' :: (m ++ ['\x7d']) := by
        rw [← List.nil_append (c :: b), ← hdec, hm]
        rfl
      rcases hc with rfl | rfl <;> exact absurd (List.cons.inj h1).1 (by decide)
    | cons x a2 =>
      have h1 : x :: (a2 ++ c :: b) = '\x7b' :: (m ++ ['\x7d']) := by
        rw [← List.cons_append, ← hdec, hm]
        rfl
      exact ⟨a2, by rw [(List.cons.inj h1).1]⟩
  have htails : a2 ++ c :: b = m ++ ['\x7d'] := by
    have h1 : '\x7b' :: (a2 ++ c :: b) = '\x7b' :: (m ++ ['\x7d']) := by
      rw [← List.cons_append, ← hdec, hm]
      rfl
    exact (List.cons.inj h1).2
  obtain ⟨w, hw⟩ : ∃ w, c :: b = w ++ ['\x7d'] := by
    have hq : (c :: b).getLast? = some '\x7d' := by
      rw [← List.getLast?_append_cons a2 c b, htails, List.getLast?_concat]
    refine ⟨(c :: b).dropLast, ?_⟩
    have h2 := List.dropLast_append_getLast (by simp : c :: b ≠ [])
    rw [List.getLast?_eq_getLast _ (by simp), Option.some.injEq] at hq
    rw [hq] at h2
    exact h2.symm
  have hshape2 : ('\x7b' :: a2) ++ ',' :: c :: b
      = '\x7b' :: (a2 ++ ',' :: w) ++ ['\x7d'] := by
    rw [List.cons_append, hw]
    simp [List.append_assoc]
  have hstrip : stripL (('\x7b' :: a2) ++ ',' :: c :: b)
      = ('\x7b' :: a2) ++ ',' :: c :: b := by
    rw [hshape2]
    exact stripL_wrap _ (by decide) (by decide)
  have hne : ¬ ('\x7b' :: a2) ++ ',' :: c :: b = ([] : List Char) := by simp
  have hpre : isPre [tickC, tickC, tickC] (('\x7b' :: a2) ++ ',' :: c :: b) = false := rfl
  have htl1 : tryLoads (('\x7b' :: a2) ++ ',' :: c :: b) = none := tryLoads_none hload
  have hfix2 : rtcF (('\x7b' :: a2) ++ c :: b).length (('\x7b' :: a2) ++ c :: b)
      = ('\x7b' :: a2) ++ c :: b := by
    rw [← hdec]
    exact hfix
  have hrtc : removeTrailingCommas (('\x7b' :: a2) ++ ',' :: c :: b) = dumpV (.obj kvs) := by
    rw [hdec]
    exact rtc_inject ('\x7b' :: a2) c b _ _ hc le_rfl le_rfl hfix2
  have htl2 : tryLoads (removeTrailingCommas (('\x7b' :: a2) ++ ',' :: c :: b))
      = some (.obj kvs) := by
    rw [hrtc, tryLoads_dumpObj]
  rw [extract_json_object]
  simp only [show (String.mk (('\x7b' :: a2) ++ ',' :: c :: b)).data
      = ('\x7b' :: a2) ++ ',' :: c :: b from rfl,
    hstrip, if_neg hne, hpre, Bool.false_eq_true, if_false, htl1, htl2]

/-- C3: counterexample to the trailing-comma clause.  Injecting one comma
before the final closing brace of the serialization of `cx3O` (whose last
string value contains `",]"`) makes `extract_json_object` return a
different object: the repair regex also deletes the comma inside the
string literal. -/
theorem C3_cx :
    dumpV cx3O = (dumpV cx3O).dropLast ++ '\x7d' :: [] ∧
    extract_json_object (String.mk ((dumpV cx3O).dropLast ++ ',' :: '\x7d' :: []))
      = .ok cx3Wrong ∧
    ¬ cx3Wrong = cx3O := by
  refine ⟨by rfl, by rfl, ?_⟩
  intro h
  simp only [cx3Wrong, cx3O, Json.obj.injEq, List.cons.injEq, Prod.mk.injEq,
    Json.str.injEq, and_true, true_and] at h
  exact (by decide : ¬ ("]" : String) = ",]") h

/-- C3 (amended): for every JSON object `O = obj kvs`,
`extract_json_object` returns `O` on the serialization of `O`, and on the
serialization wrapped in a markdown code fence; when one trailing comma is
injected before a closing brace or bracket of the serialization, the
result is still `O` provided the injected text is not itself valid JSON
and the trailing-comma repair leaves the original serialization unchanged
(the repair can corrupt string values containing a comma directly before a
bracket, see the counterexample). -/
theorem C3_amended (kvs : List (String × Json)) :
    extract_json_object (String.mk (dumpV (.obj kvs))) = .ok (.obj kvs) ∧
    extract_json_object (String.mk (fenceWrap (dumpV (.obj kvs)))) = .ok (.obj kvs) ∧
    (∀ a c b, dumpV (.obj kvs) = a ++ c :: b → (c = '\x7d' ∨ c = ']') →
      loads (a ++ ',' :: c :: b) = none →
      removeTrailingCommas (dumpV (.obj kvs)) = dumpV (.obj kvs) →
      extract_json_object (String.mk (a ++ ',' :: c :: b)) = .ok (.obj kvs)) :=
  ⟨extract_plain kvs, extract_fence kvs,
    fun a c b h1 h2 h3 h4 => extract_inject kvs a c b h1 h2 h3 h4⟩

/-- C3 witness: the amended round trip evaluated on the concrete object
`{"a": 1}`, including a concrete comma injection before its closing
brace. -/
theorem C3_witness :
    extract_json_object (String.mk (dumpV (.obj [("a", Json.num 1)])))
      = .ok (.obj [("a", Json.num 1)]) ∧
    extract_json_object (String.mk (fenceWrap (dumpV (.obj [("a", Json.num 1)]))))
      = .ok (.obj [("a", Json.num 1)]) ∧
    extract_json_object (String.mk (['\x7b', '"', 'a', '"', ':', ' ', '1']
      ++ ',' :: '\x7d' :: [])) = .ok (.obj [("a", Json.num 1)]) :=
  have h := C3_amended [("a", Json.num 1)]
  ⟨h.1, h.2.1, h.2.2 ['\x7b', '"', 'a', '"', ':', ' ', '1'] '\x7d' []
    (by rfl) (Or.inl rfl) (by rfl) (by rfl)⟩


/-- C4: per request, `_try_ai` makes at most two generative-service calls —
one initial call plus at most one strict retry, whether the first failure
is a parse failure or a schema-validation failure — and when a retry
happened the outcome is exactly the parse-then-validate result of the
strict call, whose failure is terminal. -/
theorem C4_two_calls {α : Type} (svc : Bool → String)
    (validate : Json → Except String α) :
    ((tryAI svc validate).2 = 1 ∨ (tryAI svc validate).2 = 2) ∧
    ((tryAI svc validate).2 = 2 →
      (tryAI svc validate).1 =
        match extract_json_object (svc true) with
        | .ok p => validate p
        | .error e => .error e) := by
  cases h1 : extract_json_object (svc false) with
  | error e1 =>
    simp only [tryAI, h1]
    cases h2 : extract_json_object (svc true) with
    | error e2 => simp [h2]
    | ok p2 => simp [h2]
  | ok p1 =>
    simp only [tryAI, h1]
    cases h3 : validate p1 with
    | ok a => simp [h3]
    | error e =>
      simp only [h3]
      cases h2 : extract_json_object (svc true) with
      | error e2 => simp [h2]
      | ok p2 => simp [h2]

/-- C4 witness: a concrete service whose non-strict answer fails to parse
and whose strict answer is a JSON object; exactly two calls are made and
the result is the strict call's object. -/
theorem C4_witness :
    (tryAI c4Svc c4Val).2 = 2 ∧
    (tryAI c4Svc c4Val).1 = Except.ok (Json.obj [("a", Json.num 1)]) := by
  refine ⟨by rfl, ?_⟩
  have h := (C4_two_calls c4Svc c4Val).2 (by rfl)
  rw [h]
  rfl

/-- C7 counterexample: a schema-valid AI result with `risk="high"` whose
five captions all pass the safety filter keeps its own captions, with
`captions_source = "ai_original"`; only the crop boxes are routed to the
fallback (heuristic) path.  The claim that the captions are also routed to
fallback is false. -/
theorem C7_cx :
    cx7AI.risk = "high" ∧
    (processAIResult (fun bs => bs) false cx7AI).fallback_used = true ∧
    (processAIResult (fun bs => bs) false cx7AI).crop_boxes = [] ∧
    (processAIResult (fun bs => bs) false cx7AI).captions = cx7AI.captions ∧
    (processAIResult (fun bs => bs) false cx7AI).captions_source = "ai_original" := by
  exact ⟨rfl, by rfl, by rfl, by rfl, by rfl⟩

/-- C7 (amended): `risk="high"` forces `fallback_used` and empty crop
boxes (so the downstream cropper takes its heuristic path), for every
mouth preference and box transformation; the captions, however, are the
safety-filtered model captions — they are replaced by fallback captions
only when the per-caption filter rejects them, not because of the risk
level. -/
theorem C7_amended (applyMouth : List CropBox → List CropBox) (mouthPref : Bool)
    (ai : AIResultM) (h : ai.risk = "high") :
    (processAIResult applyMouth mouthPref ai).fallback_used = true ∧
    (processAIResult applyMouth mouthPref ai).crop_boxes = [] ∧
    (processAIResult applyMouth mouthPref ai).captions
      = (ensure_5_safe_captions ai.captions (pick_expression_label ai.primary_label)).1 := by
  have hgate : ((ai.allowed = false) ∨ ai.risk = "high" ∨ ai.use_fallback = true) :=
    Or.inr (Or.inl h)
  refine ⟨?_, ?_, ?_⟩ <;>
    simp [processAIResult, if_pos hgate]

/-- C7 witness: the amended statement evaluated on the concrete high-risk
result `cx7AI`. -/
theorem C7_witness :
    cx7AI.risk = "high" ∧
    (processAIResult (fun bs => bs) true cx7AI).fallback_used = true ∧
    (processAIResult (fun bs => bs) true cx7AI).crop_boxes = [] ∧
    (processAIResult (fun bs => bs) true cx7AI).captions
      = (ensure_5_safe_captions cx7AI.captions (pick_expression_label cx7AI.primary_label)).1 :=
  ⟨rfl, (C7_amended (fun bs => bs) true cx7AI rfl).1,
    (C7_amended (fun bs => bs) true cx7AI rfl).2.1,
    (C7_amended (fun bs => bs) true cx7AI rfl).2.2⟩

end BabyMeme
